import Mathlib

/-!
Verification of the GriSPy core module (grispy/core.py): regular-grid
construction, the cell-pruning neighbor-cell locator, periodic-boundary
mirroring and the bubble / shell / nearest-neighbor queries.

Modelling conventions.
The numpy floating-point arrays are modelled over exact rational
arithmetic; machine floats are read as the real numbers the formulas
denote.  The grid dictionary is an association list from cell keys
(integer tuples) to lists of point indices.  Construction is embedded
for arbitrary dimension.  The query pipeline is embedded for
one-dimensional data, where the Euclidean metric is the absolute
difference and the half cell diagonal 0.5 * sqrt(cell_size ^ 2) is
exactly |cell_size| / 2, so every query-side quantity stays rational.
Input validation (the utils module) is an external collaborator per the
spec; validated preconditions appear as hypotheses of the theorems.
-/

namespace GriSPy

/-- Truncation of a rational toward zero: the semantics of the numpy
float-to-integer cast astype(int) that _digitize applies to the scaled
bin coordinate. -/
def truncQ (q : ℚ) : ℤ := if q < 0 then ⌈q⌉ else ⌊q⌋

/-- The epsilon padding of the grid extents (_build_grid default 1.0e-6). -/
def eps : ℚ := 1 / 1000000

/-- Minimum of a list of rationals (ndarray.min); arbitrary on []. -/
def minList (l : List ℚ) : ℚ := l.foldr min (l.headD 0)

/-- Maximum of a list of rationals (ndarray.max); arbitrary on []. -/
def maxList (l : List ℚ) : ℚ := l.foldr max (l.headD 0)

/-- One column of the data array: coordinate k of every point. -/
def col (data : List (List ℚ)) (k : ℕ) : List ℚ :=
  data.map (fun p => p.getD k 0)

/-- Lower grid extent on axis k: k_data.min() - epsilon. -/
def binLo (data : List (List ℚ)) (k : ℕ) : ℚ := minList (col data k) - eps

/-- Upper grid extent on axis k: k_data.max() + epsilon. -/
def binHi (data : List (List ℚ)) (k : ℕ) : ℚ := maxList (col data k) + eps

/-- Bin edge j on axis k: entry j of
np.linspace(min - eps, max + eps, N_cells + 1). -/
def kBins (data : List (List ℚ)) (N : ℕ) (j : ℤ) (k : ℕ) : ℚ :=
  binLo data k + j * (binHi data k - binLo data k) / N

/-- The full edge array of axis k (column k of k_bins). -/
def kBinsList (data : List (List ℚ)) (N : ℕ) (k : ℕ) : List ℚ :=
  (List.range (N + 1)).map (fun j : ℕ => kBins data N (j : ℤ) k)

/-- GriSPy._digitize: d = (N * (data - bins[0]) / (bins[-1] - bins[0]))
cast to integer, where N = len(bins) - 1.  The cast truncates toward
zero. -/
def digitize (bins : List ℚ) (x : ℚ) : ℤ :=
  truncQ ((((bins.length : ℤ) - 1 : ℤ) : ℚ) * (x - bins.headD 0) /
    (bins.getLastD 0 - bins.headD 0))

/-- Digitize coordinate x on axis k of the built grid
(digitize with bins = k_bins[:, k]). -/
def digitAx (data : List (List ℚ)) (N k : ℕ) (x : ℚ) : ℤ :=
  digitize (kBinsList data N k) x

/-- The cell key of a point: its digitized index on every axis
(one row of k_digit). -/
def cellKey (dim : ℕ) (data : List (List ℚ)) (N : ℕ) (p : List ℚ) : List ℤ :=
  (List.range dim).map (fun k => digitAx data N k (p.getD k 0))

/-- The cell key of data point i. -/
def keyOf (dim : ℕ) (data : List (List ℚ)) (N : ℕ) (i : ℕ) : List ℤ :=
  cellKey dim data N (data.getD i [])

/-- np.ravel_multi_index with dims (N,...,N) and order F: the linear
cell index sum_k key[k] * N^k (axis 0 varies fastest). -/
def linKey (N : ℕ) (key : List ℤ) : ℤ :=
  key.foldr (fun d acc => d + N * acc) 0

/-- Linear cell index of data point i. -/
def linOf (dim : ℕ) (data : List (List ℚ)) (N : ℕ) (i : ℕ) : ℤ :=
  linKey N (keyOf dim data N i)

/-- The grid dictionary: an association list from cell key to the data
point indices contained in the cell. -/
abbrev Grid := List (List ℤ × List ℕ)

/-- Dictionary lookup grid.get(key, []). -/
def gridGet (g : Grid) (key : List ℤ) : List ℕ :=
  match g with
  | [] => []
  | (k, l) :: rest => if k = key then l else gridGet rest key

/-- One step of the sparse construction: append point index i to the
list of its cell, creating the entry on first use. -/
def gridInsert (g : Grid) (key : List ℤ) (i : ℕ) : Grid :=
  match g with
  | [] => [(key, [i])]
  | (k, l) :: rest =>
    if k = key then (k, l ++ [i]) :: rest else (k, l) :: gridInsert rest key i

/-- Sparse construction branch of _build_grid: insert every point index
into the mapping under its cell key directly. -/
def sparseGrid (dim : ℕ) (data : List (List ℚ)) (N : ℕ) : Grid :=
  (List.range data.length).foldl (fun g i => gridInsert g (keyOf dim data N i) i) []

/-- data_ind[compact_ind_sort]: the point indices sorted by linear cell
index (argsort of compact_ind applied to data_ind).  The sort is
modelled by a stable sorting function; the order of equal keys is not
semantically relevant (within-cell order carries no meaning). -/
def sortedInd (dim : ℕ) (data : List (List ℚ)) (N : ℕ) : List ℕ :=
  List.insertionSort (fun a b => linOf dim data N a ≤ linOf dim data N b)
    (List.range data.length)

/-- np.searchsorted(compact_ind, t) on the sorted linear indices: the
left insertion position, i.e. the number of entries below t. -/
def cnt (dim : ℕ) (data : List (List ℚ)) (N : ℕ) (t : ℤ) : ℕ :=
  ((sortedInd dim data N).map (fun i => linOf dim data N i)).countP
    (fun v => decide (v < t))

/-- The positions t of np.arange(N_cells ^ dim) kept by the
deleted_cells mask: diff(append(-1, split_ind)) is nonzero, i.e. t = 0
(the -1 sentinel) or the insertion position changed from t - 1. -/
def keptTs (dim : ℕ) (data : List (List ℚ)) (N : ℕ) : List ℕ :=
  (List.range (N ^ dim)).filter (fun t =>
    decide (t = 0) || decide (cnt dim data N t ≠ cnt dim data N ((t : ℤ) - 1)))

/-- split_ind after the deleted_cells mask. -/
def splitIndRaw (dim : ℕ) (data : List (List ℚ)) (N : ℕ) : List ℕ :=
  (keptTs dim data N).map (fun t : ℕ => cnt dim data N (t : ℤ))

/-- split_ind after dropping the final boundary when it exceeds
data_ind[-1] = n - 1. -/
def splitInd (dim : ℕ) (data : List (List ℚ)) (N : ℕ) : List ℕ :=
  if data.length - 1 < (splitIndRaw dim data N).getLastD 0 then
    (splitIndRaw dim data N).dropLast
  else splitIndRaw dim data N

/-- np.split(S, bs) with absolute split positions bs (prev is the
position already consumed): S[0:b1], S[b1:b2], ..., S[bm:]. -/
def npSplitFrom (S : List ℕ) (prev : ℕ) : List ℕ → List (List ℕ)
  | [] => [S.drop prev]
  | b :: rest => (S.drop prev).take (b - prev) :: npSplitFrom S b rest

/-- np.split(S, bs). -/
def npSplit (S : List ℕ) (bs : List ℕ) : List (List ℕ) := npSplitFrom S 0 bs

/-- Dense construction branch of _build_grid: sort point indices by
linear cell index, find each nonempty cell contiguous range by binary
search, split, and map each cell key (k_digit[split_ind]) to its
chunk of point indices. -/
def denseGrid (dim : ℕ) (data : List (List ℚ)) (N : ℕ) : Grid :=
  ((splitInd dim data N).map
      (fun b => keyOf dim data N ((sortedInd dim data N).getD b 0))).zip
    (npSplit (sortedInd dim data N) (splitInd dim data N).tail)

/-- GriSPy._build_grid: dense strategy when N_cells ^ dim < n, sparse
strategy otherwise. -/
def buildGrid (dim : ℕ) (data : List (List ℚ)) (N : ℕ) : Grid :=
  if N ^ dim < data.length then denseGrid dim data N else sparseGrid dim data N

/-! ### One-dimensional query pipeline -/

/-- One-dimensional data as an (n, 1) array. -/
def pts1 (data : List ℚ) : List (List ℚ) := data.map (fun x => [x])

/-- k_bins[0, 0] for one-dimensional data. -/
def lo1 (data : List ℚ) : ℚ := binLo (pts1 data) 0

/-- k_bins[-1, 0] for one-dimensional data. -/
def hi1 (data : List ℚ) : ℚ := maxList (col (pts1 data) 0) + eps

/-- Digitize on the single axis of one-dimensional data. -/
def digit1 (data : List ℚ) (N : ℕ) (x : ℚ) : ℤ := digitAx (pts1 data) N 0 x

/-- The grid built over one-dimensional data. -/
def grid1 (data : List ℚ) (N : ℕ) : Grid := buildGrid 1 (pts1 data) N

/-- cell_size = k_bins[1, :] - k_bins[0, :] on the single axis. -/
def cellSize1 (data : List ℚ) (N : ℕ) : ℚ :=
  kBins (pts1 data) N 1 0 - kBins (pts1 data) N 0 0

/-- cell_radii = 0.5 * np.sum(cell_size ** 2) ** 0.5; in one dimension
the square root of cell_size ^ 2 is exactly |cell_size|. -/
def cellRadii1 (data : List ℚ) (N : ℕ) : ℚ := (1 / 2) * |cellSize1 data N|

/-- Modelled from the spec: the distance metric lives in the distances
module, which is not under src/.  Spec section 6 specifies the built-in
Euclidean metric on k-dimensional points; in one dimension the
Euclidean distance sqrt((a - b) ^ 2) is exactly the absolute
difference. -/
def euclid1 (a b : ℚ) : ℚ := |a - b|

/-- Clamp a digitized cell index into [0, N - 1]: the pair of masked
assignments k_cell[k_cell < 0] = 0 and k_cell[k_cell >= N] = N - 1
applied in sequence (for N >= 1 the sequence equals this conditional). -/
def clampCell (N : ℕ) (j : ℤ) : ℤ :=
  if j < 0 then 0 else if (N : ℤ) ≤ j then (N : ℤ) - 1 else j

/-- np.arange(a, b + 1) over integers. -/
def intRange (a b : ℤ) : List ℤ :=
  (List.range (b + 1 - a).toNat).map (fun t : ℕ => a + (t : ℤ))

/-- The physical centre of cell j: k_bins[j, k] + 0.5 * cell_size[k]. -/
def cellCentre1 (data : List ℚ) (N : ℕ) (j : ℤ) : ℚ :=
  kBins (pts1 data) N j 0 + (1 / 2) * cellSize1 data N

/-- The per-centre out_of_field test of _get_neighbor_cells on the
single axis: the coordinate is farther than the upper bound beyond
either grid extent. -/
def outOfField1 (data : List ℚ) (c u : ℚ) : Bool :=
  decide (hi1 data < c - u) || decide (c + u < lo1 data)

/-- GriSPy._get_neighbor_cells for one-dimensional data.  When every
centre is out of field the call returns an empty cell list per centre;
otherwise each centre gets the clamped digitized range
[digitize(c - u), digitize(c + u)] filtered by the conservative prune
distance(c, cell_centre) < u + cell_radii (and, when shell_flag is
set, distance(c, cell_centre) > lower - cell_radii).  The digitized
home cell array cell_point is computed by the source but never used
beyond its length, so it is not modelled. -/
def getNeighborCells1 (data : List ℚ) (N : ℕ) (centres upper lower : List ℚ)
    (shellFlag : Bool) : List (List ℤ) :=
  if (List.range centres.length).all
      (fun i => outOfField1 data (centres.getD i 0) (upper.getD i 0)) then
    centres.map (fun _ => [])
  else
    (List.range centres.length).map (fun i =>
      let c := centres.getD i 0
      let u := upper.getD i 0
      let lw := lower.getD i 0
      let jmin := clampCell N (digit1 data N (c - u))
      let jmax := clampCell N (digit1 data N (c + u))
      (intRange jmin jmax).filter (fun j =>
        decide (euclid1 c (cellCentre1 data N j) < u + cellRadii1 data N) &&
        (!shellFlag ||
          decide (lw - cellRadii1 data N < euclid1 c (cellCentre1 data N j)))))

/-- GriSPy._get_neighbor_distance for one-dimensional data: per centre,
the concatenated point indices of its candidate cells (cells absent
from the grid contribute nothing) with their metric distances; a centre
with no candidate cells yields empty arrays. -/
def getNeighborDistance1 (data : List ℚ) (N : ℕ) (centres : List ℚ)
    (cells : List (List ℤ)) : List (List ℚ) × List (List ℕ) :=
  let pairs := (List.range centres.length).map (fun i =>
    let cs := cells.getD i []
    if cs.isEmpty then ([], [])
    else
      let ids := (cs.map (fun j => gridGet (grid1 data N) [j])).flatten
      (ids.map (fun ix => euclid1 (centres.getD i 0) (data.getD ix 0)), ids))
  (pairs.map Prod.fst, pairs.map Prod.snd)

/-- np.sign on rationals. -/
def signQ (q : ℚ) : ℚ := if q < 0 then -1 else if q = 0 then 0 else 1

/-- The periodic edge vectors of _set_periodicity restricted to one
dimension: the tiling builds the column [low, 0, high], subtracts its
reverse giving [low - high, 0, high - low], deduplicates (np.unique
sorts) and drops the zero row, leaving [low - high, high - low]. -/
def periodicEdges1 (per : Option (ℚ × ℚ)) : List ℚ :=
  match per with
  | none => []
  | some (l, h) => [l - h, h - l]

/-- GriSPy._near_boundary on the single (periodic) axis. -/
def nearBoundary1 (per : Option (ℚ × ℚ)) (c u : ℚ) : Bool :=
  match per with
  | none => false
  | some (l, h) => decide (|c - l| < u) || decide (|c - h| < u)

/-- GriSPy._mirror on the single axis: translated candidates
c - edge kept when sign(edge) * u + (c - edge) lies within the periodic
domain [low, high]. -/
def mirror1 (per : Option (ℚ × ℚ)) (c u : ℚ) : List ℚ :=
  match per with
  | none => []
  | some (l, h) =>
    (periodicEdges1 per).filterMap (fun e =>
      let m := c - e
      if l ≤ signQ e * u + m ∧ signQ e * u + m ≤ h then some m else none)

/-- GriSPy._mirror_universe: the mirrored centres of the centres near a
periodic boundary, each paired with the index of its original centre. -/
def mirrorUniverse1 (per : Option (ℚ × ℚ)) (centres upper : List ℚ) :
    List (ℚ × ℕ) :=
  ((List.range centres.length).map (fun i =>
    if nearBoundary1 per (centres.getD i 0) (upper.getD i 0) then
      (mirror1 per (centres.getD i 0) (upper.getD i 0)).map (fun m => (m, i))
    else [])).flatten

/-- Keep the entries of l at the positions where mask holds: the numpy
boolean-mask indexing l[mask]. -/
def maskFilter (mask : List Bool) (l : List α) : List α :=
  ((mask.zip l).filter (fun p => p.1)).map Prod.snd

/-- The periodic merge block shared verbatim by bubble_neighbors and
shell_neighbors: run the locator and distance pass over the mirrored
centres (with the upper bound of each origin centre) and concatenate
each mirror result into the bucket of its origin centre. -/
def periodicMerge1 (data : List ℚ) (N : ℕ) (per : Option (ℚ × ℚ))
    (centres upper : List ℚ) (dsis : List (List ℚ) × List (List ℕ)) :
    List (List ℚ) × List (List ℕ) :=
  if per.isSome then
    let terrans := mirrorUniverse1 per centres upper
    let tcentres := terrans.map Prod.fst
    let tupper := terrans.map (fun t => upper.getD t.2 0)
    let tcells := getNeighborCells1 data N tcentres tupper
      (tcentres.map (fun _ => 0)) false
    let tdsis := getNeighborDistance1 data N tcentres tcells
    (List.range terrans.length).foldl (fun acc t =>
      let i := (terrans.getD t ((0 : ℚ), (0 : ℕ))).2
      (acc.1.set i (acc.1.getD i [] ++ tdsis.1.getD t []),
       acc.2.set i (acc.2.getD i [] ++ tdsis.2.getD t [])))
      dsis
  else dsis

/-- GriSPy.bubble_neighbors (unsorted path; the optional final sort is
not involved in the settled claims): locator, distance pass, periodic
merge, and the final filter distance <= upper_bound per centre. -/
def bubble1 (data : List ℚ) (N : ℕ) (per : Option (ℚ × ℚ))
    (centres upper : List ℚ) : List (List ℚ) × List (List ℕ) :=
  let cells := getNeighborCells1 data N centres upper
    (centres.map (fun _ => 0)) false
  let dsis := getNeighborDistance1 data N centres cells
  let merged := periodicMerge1 data N per centres upper dsis
  let final := (List.range centres.length).map (fun i =>
    let mask := (merged.1.getD i []).map (fun d => decide (d ≤ upper.getD i 0))
    (maskFilter mask (merged.1.getD i []), maskFilter mask (merged.2.getD i [])))
  (final.map Prod.fst, final.map Prod.snd)

/-- GriSPy.shell_neighbors (unsorted path): locator with shell_flag,
distance pass, periodic merge, then the mask distance <= upper_bound
followed by the mask lower_bound < distance on the masked arrays. -/
def shell1 (data : List ℚ) (N : ℕ) (per : Option (ℚ × ℚ))
    (centres lowerB upperB : List ℚ) : List (List ℚ) × List (List ℕ) :=
  let cells := getNeighborCells1 data N centres upperB lowerB true
  let dsis := getNeighborDistance1 data N centres cells
  let merged := periodicMerge1 data N per centres upperB dsis
  let final := (List.range centres.length).map (fun i =>
    let ds := merged.1.getD i []
    let ids := merged.2.getD i []
    let maskU := ds.map (fun d => decide (d ≤ upperB.getD i 0))
    let ds1 := maskFilter maskU ds
    let ids1 := maskFilter maskU ids
    let maskL := ds1.map (fun d => decide (lowerB.getD i 0 < d))
    (maskFilter maskL ds1, maskFilter maskL ids1))
  (final.map Prod.fst, final.map Prod.snd)

/-! ### Nearest-neighbor search -/

/-- np.argsort modelled by a stable sort of the positions by value. -/
def argsort (ds : List ℚ) : List ℕ :=
  List.insertionSort (fun a b => ds.getD a 0 ≤ ds.getD b 0)
    (List.range ds.length)

/-- The per-centre state of the expanding-shell loop of
nearest_neighbors: the n_found flags, the lower_distance_tmp and
upper_distance_tmp arrays, and the accumulated distances and indices. -/
structure NNState where
  nFound : List Bool
  lowerT : List ℚ
  upperT : List ℚ
  accD : List (List ℚ)
  accI : List (List ℕ)
deriving Repr, DecidableEq

/-- The initialisation of nearest_neighbors: open each centre home cell
(radius 0), estimate the local density (an empty home cell counts as
one point), and set the first upper guess to
0.5 * (n / (count / cell_volume)) ** (1 / dim) (dim = 1 here, so the
exponent is the identity); lower starts at 0 and the result buckets
start empty. -/
def nnInit (data : List ℚ) (N : ℕ) (centres : List ℚ) (n : ℕ) : NNState :=
  let m := centres.length
  let zeros := centres.map (fun _ => (0 : ℚ))
  let ccells := getNeighborCells1 data N centres zeros zeros false
  let dsis := getNeighborDistance1 data N centres ccells
  let counts := (List.range m).map (fun i =>
    let c := (dsis.2.getD i []).length
    if c = 0 then 1 else c)
  let cellVol := cellSize1 data N
  { nFound := List.replicate m false
    lowerT := List.replicate m 0
    upperT := (List.range m).map (fun i =>
      (1 / 2) * ((n : ℚ) * cellVol / ((counts.getD i 1 : ℕ) : ℚ)))
    accD := List.replicate m []
    accI := List.replicate m [] }

/-- One round of the while-loop of nearest_neighbors.  The still-active
centres (global indices i) are enumerated by their compressed position
i_tmp; shell_neighbors runs over the active centres with their current
bounds; a satisfied centre takes the closest n - accumulated shell
results and sets its found flag, an unsatisfied centre appends the
whole shell result and advances lower_distance_tmp[i_tmp] and
upper_distance_tmp[i_tmp] - the source indexes these two arrays by the
compressed position i_tmp, not by the global centre index i.  The
guard if n_found[i]: continue is vacuous (the enumeration is already
restricted to unfound centres) and is not modelled. -/
def nnStep (data : List ℚ) (N : ℕ) (per : Option (ℚ × ℚ)) (centres : List ℚ)
    (n : ℕ) (st : NNState) : NNState :=
  let active := (List.range centres.length).filter
    (fun i => !(st.nFound.getD i true))
  let acentres := active.map (fun i => centres.getD i 0)
  let alower := active.map (fun i => st.lowerT.getD i 0)
  let aupper := active.map (fun i => st.upperT.getD i 0)
  let sres := shell1 data N per acentres alower aupper
  let cellmin := cellSize1 data N
  (List.range active.length).foldl (fun s it =>
    let i := active.getD it 0
    let tmpD := sres.1.getD it []
    let tmpI := sres.2.getD it []
    let acc := s.accI.getD i []
    let satisfied := n ≤ tmpI.length + acc.length
    let nMore := if satisfied then n - acc.length else tmpI.length
    let s1 :=
      if satisfied then { s with nFound := s.nFound.set i true }
      else
        { s with
          lowerT := s.lowerT.set it (s.upperT.getD it 0)
          upperT := s.upperT.set it (s.upperT.getD it 0 + cellmin) }
    let sel := (argsort tmpD).take nMore
    { s1 with
      accD := s1.accD.set i (s1.accD.getD i [] ++ sel.map (fun j => tmpD.getD j 0))
      accI := s1.accI.set i (s1.accI.getD i [] ++ sel.map (fun j => tmpI.getD j 0)) })
    st

/-- The loop guard: every centre has found its n neighbors. -/
def nnAllFound (st : NNState) : Bool := st.nFound.all (fun b => b)

/-- The while-loop of nearest_neighbors, run for at most fuel rounds
(the source loop has no fuel; it runs until nnAllFound). -/
def nnLoop (data : List ℚ) (N : ℕ) (per : Option (ℚ × ℚ)) (centres : List ℚ)
    (n : ℕ) : ℕ → NNState → NNState
  | 0, st => st
  | fuel + 1, st =>
    if nnAllFound st then st
    else nnLoop data N per centres n fuel (nnStep data N per centres n st)

/-- GriSPy.nearest_neighbors for one-dimensional data, with explicit
fuel bounding the number of rounds. -/
def nearestNeighbors1 (data : List ℚ) (N : ℕ) (per : Option (ℚ × ℚ))
    (centres : List ℚ) (n fuel : ℕ) : List (List ℚ) × List (List ℕ) :=
  let st := nnLoop data N per centres n fuel (nnInit data N centres n)
  (st.accD, st.accI)

/-! ### Brute-force references (from the spec, for the comparison
claims) -/

/-- The brute-force neighbor set of spec section 8: all point indices
with distance(centre, point) <= r. -/
def bruteBubble (data : List ℚ) (c r : ℚ) : List ℕ :=
  (List.range data.length).filter
    (fun i => decide (euclid1 c (data.getD i 0) ≤ r))

/-- The brute-force annulus of spec section 8: all point indices with
lo < distance <= hi. -/
def bruteShell (data : List ℚ) (c lo hi : ℚ) : List ℕ :=
  (List.range data.length).filter (fun i =>
    decide (lo < euclid1 c (data.getD i 0)) &&
    decide (euclid1 c (data.getD i 0) ≤ hi))

/-- The brute-force top-n selection of spec section 8: the n point
indices closest to the centre (stable tie-break by index). -/
def bruteNearest (data : List ℚ) (c : ℚ) (n : ℕ) : List ℕ :=
  (argsort (data.map (fun x => euclid1 c x))).take n



/-! ### Claim theorems: concrete evaluations -/

/-- C1: bubble_neighbors does not return exactly the set of points at
distance <= r, and the result depends on N_cells.  With data
[0, 0.5, 1] and N_cells = 2 the point 0.5 sits exactly on a cell edge;
for the centre 0.4 with radius 0.1 its distance is exactly 0.1, yet the
strict pruning test distance(c, cell_centre) < upper + cell_radii
discards its cell, so the query returns nothing, while the brute-force
set is {1} and the same query on the same data built with N_cells = 1
returns {1}. -/
theorem c1_prune_boundary_eval :
    bubble1 [0, 1/2, 1] 2 none [2/5] [1/10] = ([[]], [[]]) ∧
    bruteBubble [0, 1/2, 1] (2/5) (1/10) = [1] ∧
    bubble1 [0, 1/2, 1] 1 none [2/5] [1/10] = ([[1/10]], [[1]]) := by
  with_unfolding_all decide

/-- C4: the same strict pruning defect for shell_neighbors: with the
annulus 0.01 < d <= 0.1 around the centre 0.4, the qualifying point at
distance exactly 0.1 is lost because its cell is pruned. -/
theorem c4_shell_prune_boundary_eval :
    shell1 [0, 1/2, 1] 2 none [2/5] [1/100] [1/10] = ([[]], [[]]) ∧
    bruteShell [0, 1/2, 1] (2/5) (1/100) (1/10) = [1] := by
  with_unfolding_all decide

/-- C2: nearest_neighbors does not match a brute-force top-n selection.
With data [0, 0.1, 0.2, 10, 12], N_cells = 4, centres [0.05, 9.5] and
n = 3, centre 0 is satisfied in round one, after which the compressed
position i_tmp of centre 1 no longer equals its global index; the
bound updates go to slot i_tmp = 0, centre 1 re-queries the same frozen
shell and re-appends point 4, returning indices [3, 4, 4] (point 4
twice, exactly 3 entries but not the 3 nearest), while brute force
gives [3, 4, 2]. -/
theorem c2_duplicate_neighbors_eval :
    nearestNeighbors1 [0, 1/10, 2/10, 10, 12] 4 none [1/20, 19/2] 3 10 =
      ([[1/20, 1/20, 3/20], [1/2, 5/2, 5/2]], [[0, 1, 2], [3, 4, 4]]) ∧
    bruteNearest [0, 1/10, 2/10, 10, 12] (19/2) 3 = [3, 4, 2] := by
  set_option maxRecDepth 40000 in with_unfolding_all decide

/-- C8: periodic wrap-around on the domain [0, 10): the data point at
9.9 is found by the centre 0.1 with radius 0.5 (at wrapped distance
0.2) exactly when axis 0 is periodic, and symmetrically for a point at
0.1 and a centre at 9.9; without periodicity both queries are empty. -/
theorem c8_periodic_wraparound_eval :
    bubble1 [99/10] 3 (some (0, 10)) [1/10] [1/2] = ([[1/5]], [[0]]) ∧
    bubble1 [99/10] 3 none [1/10] [1/2] = ([[]], [[]]) ∧
    bubble1 [1/10] 3 (some (0, 10)) [99/10] [1/2] = ([[1/5]], [[0]]) ∧
    bubble1 [1/10] 3 none [99/10] [1/2] = ([[]], [[]]) := by
  with_unfolding_all decide

/-- C5 counterexample: with a data point coinciding with the centre,
shell_neighbors with lower bound 0 drops the point (its distance 0
fails the strict filter 0 < d) while bubble_neighbors keeps it, so the
two queries do not agree. -/
theorem c5_zero_distance_counterexample :
    shell1 [0, 1] 1 none [0] [0] [1/2] = ([[]], [[]]) ∧
    bubble1 [0, 1] 1 none [0] [1/2] = ([[0]], [[0]]) ∧
    shell1 [0, 1] 1 none [0] [0] [1/2] ≠ bubble1 [0, 1] 1 none [0] [1/2] := by
  with_unfolding_all decide

/-- C9 counterexample: digitize truncates toward zero, it does not
floor.  For bins [0, 1] (N = 1) and the value -1/2 the claimed result
floor(1 * (-1/2 - 0) / (1 - 0)) is -1, but digitize returns 0. -/
theorem c9_floor_counterexample :
    digitize [0, 1] (-1/2) = 0 ∧ (⌊((1 : ℚ) * ((-1/2 : ℚ) - 0) / (1 - 0))⌋) = -1 := by
  with_unfolding_all decide

/-- C10 counterexample: with axis 0 periodic on [0, 100] and data
[0, 10], the centre 99.95 with radius 0.1 is out of field (its
radius-expanded box lies entirely beyond the grid extents), yet
bubble_neighbors returns the point 0 at wrapped distance 0.05 through
the mirrored centre -0.05, so the result is not empty. -/
theorem c10_periodic_counterexample :
    outOfField1 [0, 10] (9995/100) (1/10) = true ∧
    bubble1 [0, 10] 2 (some (0, 100)) [9995/100] [1/10] = ([[1/20]], [[0]]) := by
  with_unfolding_all decide

/-! ### C9: digitize against the floor formula -/

/-- C9 amended: digitize computes the truncation toward zero of
N * (value - edges[0]) / (edges[-1] - edges[0]): the floor of that
quotient for every value at or above edges[0] (with no clamping, also
above edges[-1]), but the ceiling - not the floor - for values below
edges[0]. -/
theorem c9_digitize_trunc (bins : List ℚ) (x : ℚ) (hlen : 2 ≤ bins.length)
    (hmono : bins.headD 0 < bins.getLastD 0) :
    (bins.headD 0 ≤ x →
      digitize bins x =
        ⌊(((bins.length : ℤ) - 1 : ℤ) : ℚ) * (x - bins.headD 0) /
          (bins.getLastD 0 - bins.headD 0)⌋) ∧
    (x < bins.headD 0 →
      digitize bins x =
        ⌈(((bins.length : ℤ) - 1 : ℤ) : ℚ) * (x - bins.headD 0) /
          (bins.getLastD 0 - bins.headD 0)⌉) := by
  have hN : (0 : ℚ) < (((bins.length : ℤ) - 1 : ℤ) : ℚ) := by
    push_cast
    have h1 : (2 : ℚ) ≤ (bins.length : ℚ) := by exact_mod_cast hlen
    linarith
  have hD : (0 : ℚ) < bins.getLastD 0 - bins.headD 0 := sub_pos.2 hmono
  constructor
  · intro hx
    have hq : 0 ≤ (((bins.length : ℤ) - 1 : ℤ) : ℚ) * (x - bins.headD 0) /
        (bins.getLastD 0 - bins.headD 0) :=
      div_nonneg (mul_nonneg hN.le (sub_nonneg.2 hx)) hD.le
    unfold digitize truncQ
    rw [if_neg (not_lt.2 hq)]
  · intro hx
    have hq : (((bins.length : ℤ) - 1 : ℤ) : ℚ) * (x - bins.headD 0) /
        (bins.getLastD 0 - bins.headD 0) < 0 :=
      div_neg_of_neg_of_pos (mul_neg_of_pos_of_neg hN (sub_neg.2 hx)) hD
    unfold digitize truncQ
    rw [if_pos hq]

/-- Witness for c9_digitize_trunc at bins [0, 1] and the value 3/2. -/
theorem c9_witness :
    digitize [0, 1] (3 / 2) =
      ⌊(((([0, 1] : List ℚ).length : ℤ) - 1 : ℤ) : ℚ) *
        ((3 / 2 : ℚ) - ([0, 1] : List ℚ).headD 0) /
        (([0, 1] : List ℚ).getLastD 0 - ([0, 1] : List ℚ).headD 0)⌋ :=
  (c9_digitize_trunc [0, 1] (3 / 2) (by with_unfolding_all decide)
    (by with_unfolding_all decide)).1 (by with_unfolding_all decide)

/-! ### General lemmas about the embedded definitions -/

theorem getD_map_range (f : ℕ → α) {n i : ℕ} (h : i < n) (d : α) :
    ((List.range n).map f).getD i d = f i := by
  rw [List.getD_eq_getElem?_getD, List.getElem?_map, List.getElem?_range h]
  rfl

theorem getD_map_const (l : List α) (i : ℕ) (c : β) :
    (l.map (fun _ => c)).getD i c = c := by
  rw [List.getD_eq_getElem?_getD, List.getElem?_map]
  cases l[i]? <;> rfl

theorem foldr_min_le_mem {l : List ℚ} {x : ℚ} (d : ℚ) (hx : x ∈ l) :
    l.foldr min d ≤ x := by
  induction l with
  | nil => cases hx
  | cons a t ih =>
    rcases List.mem_cons.1 hx with rfl | hx
    · exact min_le_left _ _
    · exact le_trans (min_le_right _ _) (ih hx)

theorem le_foldr_max_mem {l : List ℚ} {x : ℚ} (d : ℚ) (hx : x ∈ l) :
    x ≤ l.foldr max d := by
  induction l with
  | nil => cases hx
  | cons a t ih =>
    rcases List.mem_cons.1 hx with rfl | hx
    · exact le_max_left _ _
    · exact le_trans (ih hx) (le_max_right _ _)

theorem minList_le {l : List ℚ} {x : ℚ} (hx : x ∈ l) : minList l ≤ x :=
  foldr_min_le_mem _ hx

theorem le_maxList {l : List ℚ} {x : ℚ} (hx : x ∈ l) : x ≤ maxList l :=
  le_foldr_max_mem _ hx

theorem minList_le_maxList {l : List ℚ} (h : l ≠ []) : minList l ≤ maxList l := by
  cases l with
  | nil => cases h rfl
  | cons a t =>
    exact le_trans (minList_le (List.mem_cons_self a t))
      (le_maxList (List.mem_cons_self a t))

theorem eps_pos : 0 < eps := by norm_num [eps]

theorem col_pts1 (data : List ℚ) : col (pts1 data) 0 = data := by
  unfold col pts1
  rw [List.map_map]
  exact List.map_id data

theorem lo1_lt_hi1 {data : List ℚ} (h : data ≠ []) : lo1 data < hi1 data := by
  have h1 : minList data ≤ maxList data := minList_le_maxList h
  have h2 := eps_pos
  unfold lo1 hi1 binLo
  rw [col_pts1]
  linarith

theorem cellSize1_eq (data : List ℚ) (N : ℕ) :
    cellSize1 data N = (hi1 data - lo1 data) / N := by
  unfold cellSize1 kBins lo1 hi1 binLo binHi
  rw [col_pts1]
  push_cast
  ring

theorem cellSize1_pos {data : List ℚ} {N : ℕ} (h : data ≠ []) (hN : 1 ≤ N) :
    0 < cellSize1 data N := by
  rw [cellSize1_eq]
  have hN' : (0 : ℚ) < N := by exact_mod_cast hN
  exact div_pos (sub_pos.2 (lo1_lt_hi1 h)) hN'

theorem cellRadii1_eq {data : List ℚ} {N : ℕ} (h : data ≠ []) (hN : 1 ≤ N) :
    cellRadii1 data N = cellSize1 data N / 2 := by
  unfold cellRadii1
  rw [abs_of_pos (cellSize1_pos h hN)]
  ring

theorem mul_cellSize1 {data : List ℚ} {N : ℕ} (hN : 1 ≤ N) :
    (N : ℚ) * cellSize1 data N = hi1 data - lo1 data := by
  rw [cellSize1_eq]
  have hN' : (N : ℚ) ≠ 0 := by positivity
  field_simp

theorem clampCell_mem {N : ℕ} (hN : 1 ≤ N) (j : ℤ) :
    0 ≤ clampCell N j ∧ clampCell N j ≤ (N : ℤ) - 1 := by
  unfold clampCell
  split_ifs <;> omega

theorem mem_intRange {a b j : ℤ} (h : j ∈ intRange a b) : a ≤ j ∧ j ≤ b := by
  unfold intRange at h
  simp only [List.mem_map, List.mem_range] at h
  obtain ⟨t, ht, rfl⟩ := h
  omega

theorem cellCentre1_eq (data : List ℚ) (N : ℕ) (j : ℤ) :
    cellCentre1 data N j =
      lo1 data + (j : ℚ) * cellSize1 data N + cellSize1 data N / 2 := by
  unfold cellCentre1 cellSize1 kBins lo1 binLo binHi
  push_cast
  ring

theorem cellCentre1_bounds {data : List ℚ} {N : ℕ} (h : data ≠ []) (hN : 1 ≤ N)
    {j : ℤ} (h0 : 0 ≤ j) (h1 : j ≤ (N : ℤ) - 1) :
    lo1 data + cellSize1 data N / 2 ≤ cellCentre1 data N j ∧
    cellCentre1 data N j ≤ hi1 data - cellSize1 data N / 2 := by
  have hs := cellSize1_pos h hN
  have hj0 : (0 : ℚ) ≤ (j : ℚ) := by exact_mod_cast h0
  have hj1 : (j : ℚ) ≤ (N : ℚ) - 1 := by exact_mod_cast h1
  have hNs := @mul_cellSize1 data N hN
  rw [cellCentre1_eq]
  constructor
  · nlinarith
  · nlinarith

theorem outOfField1_iff {data : List ℚ} {c u : ℚ} :
    outOfField1 data c u = true ↔ hi1 data < c - u ∨ c + u < lo1 data := by
  simp [outOfField1]

theorem maskFilter_nil (m : List Bool) : maskFilter m ([] : List α) = [] := by
  simp [maskFilter]

/-- A centre that is out of field keeps no candidate cell: either the
whole batch is out of field and the early return applies, or every cell
of its clamped range fails the conservative prune. -/
theorem getNeighborCells1_out_of_field {data : List ℚ} {N : ℕ}
    {centres upper lower : List ℚ} {flag : Bool} (hdata : data ≠ []) (hN : 1 ≤ N)
    {i : ℕ} (hi : i < centres.length) (hu : 0 ≤ upper.getD i 0)
    (hout : outOfField1 data (centres.getD i 0) (upper.getD i 0) = true) :
    (getNeighborCells1 data N centres upper lower flag).getD i [] = [] := by
  unfold getNeighborCells1
  split
  · exact getD_map_const _ _ _
  · rw [getD_map_range _ hi]
    show ((intRange _ _).filter _) = []
    refine List.filter_eq_nil_iff.2 ?_
    intro j hj
    obtain ⟨hj1, hj2⟩ := mem_intRange hj
    have ha := clampCell_mem hN
      (digit1 data N (centres.getD i 0 - upper.getD i 0))
    have hb := clampCell_mem hN
      (digit1 data N (centres.getD i 0 + upper.getD i 0))
    have hj0 : 0 ≤ j := le_trans ha.1 hj1
    have hjN : j ≤ (N : ℤ) - 1 := le_trans hj2 hb.2
    obtain ⟨hcc1, hcc2⟩ := cellCentre1_bounds hdata hN hj0 hjN
    have hs := cellSize1_pos hdata hN
    have hrad := cellRadii1_eq hdata hN
    rw [outOfField1_iff] at hout
    simp only [Bool.and_eq_true, decide_eq_true_eq]
    rintro ⟨h1, -⟩
    rw [hrad] at h1
    unfold euclid1 at h1
    rcases hout with hout | hout
    · have habs : centres.getD i 0 - cellCentre1 data N j ≤
          |centres.getD i 0 - cellCentre1 data N j| := le_abs_self _
      linarith
    · have habs : cellCentre1 data N j - centres.getD i 0 ≤
          |centres.getD i 0 - cellCentre1 data N j| := by
        rw [abs_sub_comm]
        exact le_abs_self _
      linarith

/-- The distance pass yields empty arrays for a centre with no
candidate cells. -/
theorem getNeighborDistance1_getD_empty {data : List ℚ} {N : ℕ}
    {centres : List ℚ} {cells : List (List ℤ)} {i : ℕ}
    (hi : i < centres.length) (hc : cells.getD i [] = []) :
    (getNeighborDistance1 data N centres cells).1.getD i [] = [] ∧
    (getNeighborDistance1 data N centres cells).2.getD i [] = [] := by
  unfold getNeighborDistance1
  constructor <;>
  · show (((List.range centres.length).map _).map _).getD i [] = []
    rw [List.map_map, getD_map_range _ hi]
    simp only [Function.comp_apply, hc, List.isEmpty_nil, if_true, ite_true]

/-- C10 amended: with no periodicity configured, a query centre whose
radius-expanded box falls entirely outside the grid extents yields
empty distance and index arrays from bubble_neighbors, also inside a
mixed batch.  (With a periodic axis configured the mirror pass can
return wrap-around neighbors for such a centre, see the
counterexample.) -/
theorem c10_out_of_field_empty (data : List ℚ) (N : ℕ) (centres upper : List ℚ)
    (hdata : data ≠ []) (hN : 1 ≤ N) (i : ℕ) (hi : i < centres.length)
    (hu : 0 ≤ upper.getD i 0)
    (hout : outOfField1 data (centres.getD i 0) (upper.getD i 0) = true) :
    (bubble1 data N none centres upper).1.getD i [] = [] ∧
    (bubble1 data N none centres upper).2.getD i [] = [] := by
  have hcells := @getNeighborCells1_out_of_field data N centres upper
    (centres.map (fun _ => 0)) false hdata hN i hi hu hout
  have hdist := @getNeighborDistance1_getD_empty data N centres _ i hi hcells
  unfold bubble1 periodicMerge1
  simp only [Option.isSome_none, Bool.false_eq_true, if_false]
  constructor <;>
  · show (((List.range centres.length).map _).map _).getD i [] = []
    rw [List.map_map, getD_map_range _ hi]
    simp only [Function.comp]
    simp only [hdist.1, hdist.2]
    simp [maskFilter_nil]

/-- Witness for c10_out_of_field_empty: data [0, 1], N_cells = 1, the
single centre 5 with radius 1 is out of field and gets empty results. -/
theorem c10_witness :
    (bubble1 [0, 1] 1 none [5] [1]).1.getD 0 [] = [] ∧
    (bubble1 [0, 1] 1 none [5] [1]).2.getD 0 [] = [] :=
  c10_out_of_field_empty [0, 1] 1 [5] [1] (by with_unfolding_all decide)
    (by with_unfolding_all decide) 0 (by with_unfolding_all decide)
    (by with_unfolding_all decide) (by with_unfolding_all decide)

theorem getD_replicate {n i : ℕ} (h : i < n) (a d : α) :
    (List.replicate n a).getD i d = a := by
  rw [List.getD_eq_getElem?_getD, List.getElem?_replicate]
  simp [h]

theorem maskFilter_map_self (f : α → Bool) (l : List α) :
    maskFilter (l.map f) l = l.filter f := by
  induction l with
  | nil => rfl
  | cons a t ih =>
    simp only [maskFilter, List.map_cons, List.zip_cons_cons, List.filter_cons]
    by_cases h : f a
    · simp only [h, if_pos]
      simpa [maskFilter, h] using ih
    · simp only [Bool.not_eq_true] at h
      simpa [maskFilter, h] using ih

/-- With every lower bound equal to zero, the shell locator keeps
exactly the cells of the plain locator: the distance of a centre to a
cell centre is nonnegative, hence above 0 - cell_radii. -/
theorem getNeighborCells1_shell_zero (data : List ℚ) (N : ℕ)
    (centres upper lower lower' : List ℚ) (hdata : data ≠ []) (hN : 1 ≤ N)
    (hzero : ∀ i, i < centres.length → lower.getD i 0 = 0) :
    getNeighborCells1 data N centres upper lower true =
      getNeighborCells1 data N centres upper lower' false := by
  unfold getNeighborCells1
  split
  · rfl
  · refine List.map_congr_left ?_
    intro i hi
    have hi' := List.mem_range.1 hi
    refine List.filter_congr ?_
    intro j hj
    have hs := cellSize1_pos hdata hN
    have hrad := cellRadii1_eq hdata hN
    have habs : 0 ≤ euclid1 (centres.getD i 0) (cellCentre1 data N j) :=
      abs_nonneg _
    have hlt : lower.getD i 0 - cellRadii1 data N <
        euclid1 (centres.getD i 0) (cellCentre1 data N j) := by
      rw [hzero i hi', hrad]
      linarith
    simp only [List.getD_eq_getElem?_getD] at hlt
    simp [hlt]


/-- C5 amended: per centre, shell_neighbors with lower bound 0 returns
exactly the distances and indices of bubble_neighbors with the same
upper bound minus the entries at distance exactly 0, which bubble
keeps (d <= hi) and shell drops (its lower filter 0 < d is strict). -/
theorem c5_shell_zero_eq_bubble_except_zero (data : List ℚ) (N : ℕ)
    (per : Option (ℚ × ℚ)) (centres upper : List ℚ) (hdata : data ≠ [])
    (hN : 1 ≤ N) (i : ℕ) (hi : i < centres.length) :
    (shell1 data N per centres (List.replicate centres.length 0)
        upper).1.getD i [] =
      ((bubble1 data N per centres upper).1.getD i []).filter
        (fun d => decide (0 < d)) ∧
    (shell1 data N per centres (List.replicate centres.length 0)
        upper).2.getD i [] =
      maskFilter
        (((bubble1 data N per centres upper).1.getD i []).map
          (fun d => decide (0 < d)))
        ((bubble1 data N per centres upper).2.getD i []) := by
  have hc : getNeighborCells1 data N centres upper
      (List.replicate centres.length 0) true =
      getNeighborCells1 data N centres upper (centres.map (fun _ => 0)) false :=
    getNeighborCells1_shell_zero data N centres upper _ _ hdata hN
      (fun j hj => getD_replicate hj 0 0)
  unfold shell1 bubble1
  rw [hc]
  simp only []
  constructor
  · rw [List.map_map, List.map_map, getD_map_range _ hi, getD_map_range _ hi]
    simp only [Function.comp_apply]
    rw [getD_replicate hi, maskFilter_map_self]
  · rw [List.map_map, List.map_map, List.map_map, getD_map_range _ hi,
      getD_map_range _ hi, getD_map_range _ hi]
    simp only [Function.comp_apply]
    rw [getD_replicate hi]

/-- Witness for c5_shell_zero_eq_bubble_except_zero: data [0, 1],
N_cells = 1, one centre at 1/4 with upper bound 1/2. -/
theorem c5_witness :
    (shell1 [0, 1] 1 none [1/4] (List.replicate 1 0) [1/2]).1.getD 0 [] =
      ((bubble1 [0, 1] 1 none [1/4] [1/2]).1.getD 0 []).filter
        (fun d => decide (0 < d)) ∧
    (shell1 [0, 1] 1 none [1/4] (List.replicate 1 0) [1/2]).2.getD 0 [] =
      maskFilter
        (((bubble1 [0, 1] 1 none [1/4] [1/2]).1.getD 0 []).map
          (fun d => decide (0 < d)))
        ((bubble1 [0, 1] 1 none [1/4] [1/2]).2.getD 0 []) :=
  c5_shell_zero_eq_bubble_except_zero [0, 1] 1 none [1/4] [1/2]
    (by with_unfolding_all decide) (by with_unfolding_all decide) 0
    (by with_unfolding_all decide)

open List

/-! ### Grid construction: partition and strategy equivalence -/

theorem flatten_gridInsert (g : Grid) (key : List ℤ) (i : ℕ) :
    ((gridInsert g key i).map Prod.snd).flatten ~
      (g.map Prod.snd).flatten ++ [i] := by
  induction g with
  | nil => simp [gridInsert]
  | cons e rest ih =>
    obtain ⟨k, l⟩ := e
    unfold gridInsert
    by_cases h : k = key
    · rw [if_pos h]
      simp only [List.map_cons, List.flatten_cons]
      calc (l ++ [i]) ++ (rest.map Prod.snd).flatten
          = l ++ ([i] ++ (rest.map Prod.snd).flatten) := by
            rw [List.append_assoc]
        _ ~ l ++ ((rest.map Prod.snd).flatten ++ [i]) :=
            List.Perm.append_left l List.perm_append_comm
        _ = (l ++ (rest.map Prod.snd).flatten) ++ [i] := by
            rw [List.append_assoc]
    · rw [if_neg h]
      simp only [List.map_cons, List.flatten_cons]
      calc l ++ ((gridInsert rest key i).map Prod.snd).flatten
          ~ l ++ ((rest.map Prod.snd).flatten ++ [i]) :=
            List.Perm.append_left l ih
        _ = (l ++ (rest.map Prod.snd).flatten) ++ [i] := by
            rw [List.append_assoc]

theorem flatten_foldl_gridInsert (key : ℕ → List ℤ) (L : List ℕ) (g : Grid) :
    ((L.foldl (fun g i => gridInsert g (key i) i) g).map Prod.snd).flatten ~
      (g.map Prod.snd).flatten ++ L := by
  induction L generalizing g with
  | nil => simp
  | cons a L ih =>
    calc ((List.foldl _ (gridInsert g (key a) a) L).map Prod.snd).flatten
        ~ ((gridInsert g (key a) a).map Prod.snd).flatten ++ L := ih _
      _ ~ ((g.map Prod.snd).flatten ++ [a]) ++ L :=
          (flatten_gridInsert g (key a) a).append_right L
      _ = (g.map Prod.snd).flatten ++ (a :: L) := by simp

/-- The sparse strategy distributes the point indices 0..n-1 over the
cells: the concatenation of all cell lists is a permutation of
range n. -/
theorem sparseGrid_partition (dim : ℕ) (data : List (List ℚ)) (N : ℕ) :
    ((sparseGrid dim data N).map Prod.snd).flatten ~ List.range data.length := by
  have h := flatten_foldl_gridInsert (keyOf dim data N)
    (List.range data.length) []
  simpa [sparseGrid] using h

theorem npSplitFrom_length (S : List ℕ) (prev : ℕ) (bs : List ℕ) :
    (npSplitFrom S prev bs).length = bs.length + 1 := by
  induction bs generalizing prev with
  | nil => rfl
  | cons b rest ih => simp [npSplitFrom, ih]

theorem flatten_npSplitFrom (S : List ℕ) :
    ∀ (bs : List ℕ) (prev : ℕ), List.Chain (· ≤ ·) prev bs →
      (npSplitFrom S prev bs).flatten = S.drop prev := by
  intro bs
  induction bs with
  | nil => intro prev _; simp [npSplitFrom]
  | cons b rest ih =>
    intro prev hchain
    rw [List.chain_cons] at hchain
    simp only [npSplitFrom, List.flatten_cons, ih b hchain.2]
    have hd : S.drop b = (S.drop prev).drop (b - prev) := by
      rw [List.drop_drop]
      congr 1
      omega
    rw [hd, List.take_append_drop]

theorem chain_zero_of_pairwise {bs : List ℕ} (h : bs.Pairwise (· ≤ ·)) :
    List.Chain (· ≤ ·) 0 bs := by
  rw [List.chain_iff_pairwise]
  exact List.Pairwise.cons (fun b _ => Nat.zero_le b) h

theorem getD_mem_of_lt {l : List α} {i : ℕ} (h : i < l.length) (d : α) :
    l.getD i d ∈ l := by
  simp only [List.getD_eq_getElem?_getD, List.getElem?_eq_getElem h,
    Option.getD_some]
  exact List.getElem_mem h

theorem kBinsList_length (data : List (List ℚ)) (N k : ℕ) :
    (kBinsList data N k).length = N + 1 := by
  simp [kBinsList]

theorem kBinsList_headD (data : List (List ℚ)) (N k : ℕ) :
    (kBinsList data N k).headD 0 = binLo data k := by
  unfold kBinsList
  rw [List.range_succ_eq_map]
  simp [kBins]

theorem kBinsList_getLastD (data : List (List ℚ)) {N : ℕ} (hN : 1 ≤ N) (k : ℕ) :
    (kBinsList data N k).getLastD 0 = binHi data k := by
  unfold kBinsList
  rw [List.range_succ, List.map_append]
  simp only [List.map_cons, List.map_nil]
  rw [List.getLastD_concat]
  unfold kBins
  have hN' : (N : ℚ) ≠ 0 := by positivity
  push_cast
  field_simp

/-- Every coordinate of the data digitizes into [0, N - 1]: the epsilon
padding puts min - eps strictly below and max + eps strictly above
every coordinate, so the scaled quotient lies strictly between 0 and
N. -/
theorem digitAx_bounds {data : List (List ℚ)} {N : ℕ} (hN : 1 ≤ N) {k : ℕ}
    {x : ℚ} (hx : x ∈ col data k) :
    0 ≤ digitAx data N k x ∧ digitAx data N k x < N := by
  have hmin : minList (col data k) ≤ x := minList_le hx
  have hmax : x ≤ maxList (col data k) := le_maxList hx
  have he := eps_pos
  unfold digitAx digitize
  rw [kBinsList_length, kBinsList_headD, kBinsList_getLastD data hN k]
  have hNq : ((((N + 1 : ℕ) : ℤ) - 1 : ℤ) : ℚ) = (N : ℚ) := by push_cast; ring
  rw [hNq]
  have hlo : binLo data k < x := by unfold binLo; linarith
  have hhi : x < binHi data k := by unfold binHi; linarith
  have hD : 0 < binHi data k - binLo data k := by linarith
  have hN' : (0 : ℚ) < N := by exact_mod_cast hN
  have hq0 : 0 ≤ (N : ℚ) * (x - binLo data k) / (binHi data k - binLo data k) :=
    le_of_lt (div_pos (mul_pos hN' (by linarith)) hD)
  unfold truncQ
  rw [if_neg (not_lt.2 hq0)]
  refine ⟨Int.floor_nonneg.2 hq0, ?_⟩
  rw [Int.floor_lt]
  push_cast
  rw [div_lt_iff hD]
  nlinarith

theorem linKey_bounds {N : ℕ} : ∀ {key : List ℤ},
    (∀ d ∈ key, 0 ≤ d ∧ d < N) →
    0 ≤ linKey N key ∧ linKey N key < (N : ℤ) ^ key.length := by
  intro key
  induction key with
  | nil => intro _; simp [linKey]
  | cons d rest ih =>
    intro h
    have hd := h d (List.mem_cons_self _ _)
    have hrest := ih (fun x hx => h x (List.mem_cons_of_mem _ hx))
    have hstep : linKey N (d :: rest) = d + N * linKey N rest := rfl
    rw [hstep, List.length_cons, pow_succ]
    constructor
    · nlinarith [hd.1, hrest.1]
    · nlinarith [hd.2, hrest.2, hrest.1]

theorem keyOf_length (dim : ℕ) (data : List (List ℚ)) (N i : ℕ) :
    (keyOf dim data N i).length = dim := by
  simp [keyOf, cellKey]

theorem linOf_bounds {dim : ℕ} {data : List (List ℚ)} {N : ℕ} (hN : 1 ≤ N)
    {i : ℕ} (hi : i < data.length) :
    0 ≤ linOf dim data N i ∧ linOf dim data N i < (N : ℤ) ^ dim := by
  have hkey : ∀ d ∈ keyOf dim data N i, 0 ≤ d ∧ d < N := by
    intro d hd
    unfold keyOf cellKey at hd
    obtain ⟨k, hk, rfl⟩ := List.mem_map.1 hd
    refine digitAx_bounds hN ?_
    exact List.mem_map_of_mem _ (getD_mem_of_lt hi [])
  have h := linKey_bounds hkey
  rwa [keyOf_length] at h

theorem length_sortedInd (dim : ℕ) (data : List (List ℚ)) (N : ℕ) :
    (sortedInd dim data N).length = data.length := by
  unfold sortedInd
  rw [List.length_insertionSort, List.length_range]

theorem mem_sortedInd {dim : ℕ} {data : List (List ℚ)} {N : ℕ} {i : ℕ} :
    i ∈ sortedInd dim data N ↔ i < data.length := by
  unfold sortedInd
  rw [List.mem_insertionSort, List.mem_range]

theorem cnt_zero (dim : ℕ) (data : List (List ℚ)) (N : ℕ) (hN : 1 ≤ N) :
    cnt dim data N 0 = 0 := by
  unfold cnt
  rw [List.countP_eq_zero]
  intro v hv
  obtain ⟨i, hiS, rfl⟩ := List.mem_map.1 hv
  have hi : i < data.length := mem_sortedInd.1 hiS
  simp [not_lt, (linOf_bounds hN hi).1]

theorem cnt_le_length (dim : ℕ) (data : List (List ℚ)) (N : ℕ) (t : ℤ) :
    cnt dim data N t ≤ data.length := by
  unfold cnt
  calc ((sortedInd dim data N).map (fun i => linOf dim data N i)).countP
        (fun v => decide (v < t))
      ≤ ((sortedInd dim data N).map (fun i => linOf dim data N i)).length :=
        List.countP_le_length _
    _ = data.length := by rw [List.length_map, length_sortedInd]

theorem cnt_mono (dim : ℕ) (data : List (List ℚ)) (N : ℕ) {t u : ℤ}
    (h : t ≤ u) : cnt dim data N t ≤ cnt dim data N u := by
  unfold cnt
  refine List.countP_mono_left ?_
  intro v _ hv
  have hvt : v < t := of_decide_eq_true hv
  exact decide_eq_true (lt_of_lt_of_le hvt h)

theorem keptTs_head (dim : ℕ) (data : List (List ℚ)) (N : ℕ) (hN : 1 ≤ N) :
    ∃ rest, keptTs dim data N = 0 :: rest := by
  unfold keptTs
  have hM : 1 ≤ N ^ dim := Nat.one_le_pow _ _ (by omega)
  obtain ⟨M, hM'⟩ : ∃ M, N ^ dim = M + 1 := ⟨N ^ dim - 1, by omega⟩
  rw [hM', List.range_succ_eq_map, List.filter_cons]
  simp

theorem keptTs_pairwise (dim : ℕ) (data : List (List ℚ)) (N : ℕ) :
    (keptTs dim data N).Pairwise (· < ·) := by
  unfold keptTs
  exact (List.pairwise_lt_range _).filter _

theorem splitIndRaw_head (dim : ℕ) (data : List (List ℚ)) (N : ℕ)
    (hN : 1 ≤ N) : ∃ rest, splitIndRaw dim data N = 0 :: rest := by
  obtain ⟨rest, hk⟩ := keptTs_head dim data N hN
  refine ⟨rest.map (fun t : ℕ => cnt dim data N (t : ℤ)), ?_⟩
  unfold splitIndRaw
  rw [hk, List.map_cons]
  congr 1
  exact cnt_zero dim data N hN

theorem splitIndRaw_pairwise (dim : ℕ) (data : List (List ℚ)) (N : ℕ) :
    (splitIndRaw dim data N).Pairwise (· ≤ ·) := by
  unfold splitIndRaw
  refine List.Pairwise.map _ ?_ (keptTs_pairwise dim data N)
  intro a b hab
  exact cnt_mono dim data N (by exact_mod_cast hab.le)

theorem splitInd_pairwise (dim : ℕ) (data : List (List ℚ)) (N : ℕ) :
    (splitInd dim data N).Pairwise (· ≤ ·) := by
  unfold splitInd
  split
  · exact (splitIndRaw_pairwise dim data N).sublist (List.dropLast_sublist _)
  · exact splitIndRaw_pairwise dim data N

theorem splitInd_head (dim : ℕ) (data : List (List ℚ)) (N : ℕ)
    (hdata : data ≠ []) (hN : 1 ≤ N) :
    ∃ rest, splitInd dim data N = 0 :: rest := by
  obtain ⟨rest, hraw⟩ := splitIndRaw_head dim data N hN
  unfold splitInd
  split
  · rename_i hdrop
    cases rest with
    | nil =>
      exfalso
      rw [hraw] at hdrop
      simp at hdrop
    | cons b rest2 =>
      rw [hraw]
      exact ⟨(b :: rest2).dropLast, rfl⟩
  · exact ⟨rest, hraw⟩

/-- The dense strategy also distributes the point indices 0..n-1 over
the cells: reassembling the split chunks gives back the sorted index
array, a permutation of range n. -/
theorem denseGrid_partition (dim : ℕ) (data : List (List ℚ)) (N : ℕ)
    (hdata : data ≠ []) (hN : 1 ≤ N) :
    ((denseGrid dim data N).map Prod.snd).flatten ~ List.range data.length := by
  obtain ⟨rest, hsplit⟩ := splitInd_head dim data N hdata hN
  unfold denseGrid
  rw [List.map_snd_zip]
  · have hchain : List.Chain (· ≤ ·) 0 (splitInd dim data N).tail :=
      chain_zero_of_pairwise
        ((splitInd_pairwise dim data N).sublist (List.tail_sublist _))
    rw [npSplit, flatten_npSplitFrom _ _ _ hchain, List.drop_zero]
    exact List.perm_insertionSort _ _
  · rw [npSplit, npSplitFrom_length, List.length_map, hsplit]
    simp

/-- C6: in every built index each point index appears under exactly one
cell key: the concatenation of the per-cell index lists is a
permutation of 0..n-1 (coverage, disjointness and no duplication). -/
theorem c6_grid_partition (dim : ℕ) (data : List (List ℚ)) (N : ℕ)
    (hdata : data ≠ []) (hN : 1 ≤ N) :
    ((buildGrid dim data N).map Prod.snd).flatten ~ List.range data.length := by
  unfold buildGrid
  split
  · exact denseGrid_partition dim data N hdata hN
  · exact sparseGrid_partition dim data N

/-- Witness for c6_grid_partition: three one-dimensional points in one
cell. -/
theorem c6_witness :
    ((buildGrid 1 [[0], [1], [2]] 1).map Prod.snd).flatten ~ List.range 3 :=
  c6_grid_partition 1 [[0], [1], [2]] 1 (by with_unfolding_all decide)
    (by with_unfolding_all decide)


/-- The cell size of the grid over [0, 10] with N_cells = 4. -/
theorem c3_cellsize : cellSize1 [0, 10] 4 = 5000001/2000000 := by
  unfold cellSize1 kBins binLo binHi
  rw [show col (pts1 [0, 10]) 0 = [0, 10] from col_pts1 [0, 10]]
  norm_num [minList, maxList, eps, min_def, max_def]

/-- The initial nearest-neighbor state for data [0, 10], N_cells = 4,
centres [0.1, 5] and n = 1: the centre 5 sits exactly on a cell edge,
its radius-0 locator keeps no cell (strict prune), so its density count
falls back to one point and both upper guesses are cell_size / 2. -/
theorem c3_init :
    nnInit [0, 10] 4 [1/10, 5] 1 =
      { nFound := [false, false], lowerT := [0, 0],
        upperT := [5000001/4000000, 5000001/4000000],
        accD := [[], []], accI := [[], []] } := by
  unfold nnInit
  simp only [List.length_cons, List.length_nil, List.map_cons, List.map_nil]
  rw [show getNeighborCells1 [0, 10] 4 [1/10, 5] [0, 0] [0, 0] false = [[0], []]
    from by with_unfolding_all decide]
  rw [show getNeighborDistance1 [0, 10] 4 [1/10, 5] [[0], []] =
    ([[1/10], []], [[0], []]) from by with_unfolding_all decide]
  rw [c3_cellsize]
  norm_num [List.range_succ, List.replicate]

/-- Round one shell of the divergence scenario: centre 0.1 finds point
0 at distance 0.1, centre 5 finds nothing within cell_size / 2. -/
theorem c3_round1_shell :
    shell1 [0, 10] 4 none [1/10, 5] [0, 0] [5000001/4000000, 5000001/4000000] =
      ([[1/10], []], [[0], []]) := by
  with_unfolding_all decide

/-- Round one: centre 0 is satisfied; centre 1 is not and its bounds
advance (in round one the compressed position equals the global
index). -/
theorem c3_round1 :
    nnStep [0, 10] 4 none [1/10, 5] 1
      { nFound := [false, false], lowerT := [0, 0],
        upperT := [5000001/4000000, 5000001/4000000],
        accD := [[], []], accI := [[], []] } =
      { nFound := [true, false], lowerT := [0, 5000001/4000000],
        upperT := [5000001/4000000, 15000003/4000000],
        accD := [[1/10], []], accI := [[0], []] } := by
  unfold nnStep
  simp only [List.length_cons, List.length_nil, List.range_succ, List.range_zero,
    List.nil_append, List.cons_append, List.filter_cons, List.filter_nil,
    List.getD_cons_zero, List.getD_cons_succ, Bool.not_true, Bool.not_false,
    if_true, if_false, List.map_cons, List.map_nil, Bool.false_eq_true,
    ite_false, ite_true, List.foldl_cons, List.foldl_nil]
  rw [c3_round1_shell, c3_cellsize]
  norm_num [argsort, List.insertionSort, List.orderedInsert, List.range_succ,
    List.range_zero]

/-- Every later round: only centre 1 is active, its compressed position
is 0, so the source updates lower_distance_tmp[0] and
upper_distance_tmp[0] - the slots of the already satisfied centre 0 -
while the bounds of centre 1 (slots index 1) stay frozen; its shell
query is the same empty shell forever. -/
theorem c3_step (a b : ℚ) :
    nnStep [0, 10] 4 none [1/10, 5] 1
      { nFound := [true, false], lowerT := [a, 5000001/4000000],
        upperT := [b, 15000003/4000000],
        accD := [[1/10], []], accI := [[0], []] } =
      { nFound := [true, false], lowerT := [b, 5000001/4000000],
        upperT := [b + 5000001/2000000, 15000003/4000000],
        accD := [[1/10], []], accI := [[0], []] } := by
  unfold nnStep
  simp only [List.length_cons, List.length_nil, List.range_succ, List.range_zero,
    List.nil_append, List.cons_append, List.filter_cons, List.filter_nil,
    List.getD_cons_zero, List.getD_cons_succ, Bool.not_true, Bool.not_false,
    if_true, if_false, List.map_cons, List.map_nil, Bool.false_eq_true,
    ite_false, ite_true, List.foldl_cons, List.foldl_nil]
  rw [show shell1 [0, 10] 4 none [5] [5000001/4000000] [15000003/4000000] =
    ([[]], [[]]) from by with_unfolding_all decide]
  rw [c3_cellsize]
  simp [argsort, List.range_zero, List.insertionSort]

/-- Closed form of the loop state from round two on: centre 1 stays
unfound with frozen bounds; only the dead slot 0 keeps growing. -/
theorem c3_closed (k : ℕ) :
    (nnStep [0, 10] 4 none [1/10, 5] 1)^[k + 2]
      (nnInit [0, 10] 4 [1/10, 5] 1) =
      { nFound := [true, false],
        lowerT := [5000001/4000000 + (k : ℚ) * (5000001/2000000),
          5000001/4000000],
        upperT := [5000001/4000000 + ((k : ℚ) + 1) * (5000001/2000000),
          15000003/4000000],
        accD := [[1/10], []], accI := [[0], []] } := by
  induction k with
  | zero =>
    simp only [Nat.zero_add, Function.iterate_succ_apply,
      Function.iterate_zero_apply, Function.iterate_one]
    rw [c3_init, c3_round1, c3_step]
    simp only [NNState.mk.injEq]
    norm_num
  | succ k ih =>
    have hs : k + 1 + 2 = (k + 2) + 1 := by omega
    rw [hs, Function.iterate_succ_apply', ih, c3_step]
    simp only [NNState.mk.injEq, List.cons.injEq, and_true, true_and]
    push_cast
    constructor <;> ring

/-- C3: the expanding-shell loop of nearest_neighbors does not
terminate on data [0, 10] with N_cells = 4, centres [0.1, 5] and n = 1:
no number of rounds satisfies every centre (first conjunct), because
after round two the still-unsatisfied centre 1 never grows its upper
radius again (third conjunct) - the source indexes the bound arrays by
the compressed position i_tmp instead of the centre index i. -/
theorem c3_loop_never_terminates :
    (∀ m : ℕ, nnAllFound ((nnStep [0, 10] 4 none [1/10, 5] 1)^[m]
      (nnInit [0, 10] 4 [1/10, 5] 1)) = false) ∧
    ((nnStep [0, 10] 4 none [1/10, 5] 1)^[2]
      (nnInit [0, 10] 4 [1/10, 5] 1)).nFound.getD 1 true = false ∧
    ((nnStep [0, 10] 4 none [1/10, 5] 1)^[3]
        (nnInit [0, 10] 4 [1/10, 5] 1)).upperT.getD 1 0 =
      ((nnStep [0, 10] 4 none [1/10, 5] 1)^[2]
        (nnInit [0, 10] 4 [1/10, 5] 1)).upperT.getD 1 0 := by
  refine ⟨?_, ?_, ?_⟩
  · intro m
    match m with
    | 0 =>
      rw [Function.iterate_zero_apply, c3_init]
      rfl
    | 1 =>
      rw [Function.iterate_one, c3_init, c3_round1]
      rfl
    | (k + 2) =>
      rw [c3_closed k]
      rfl
  · rw [show (2 : ℕ) = 0 + 2 from rfl, c3_closed 0]
    rfl
  · rw [show (3 : ℕ) = 1 + 2 from rfl, c3_closed 1,
      show (2 : ℕ) = 0 + 2 from rfl, c3_closed 0]
    rfl



-- L1: positions below the count have value < t
theorem sorted_getElem_lt_of_lt_countP {L : List ℤ} (hs : L.Sorted (· ≤ ·))
    {t : ℤ} {i : ℕ} (hi : i < L.length)
    (h : i < L.countP (fun v => decide (v < t))) : L[i] < t := by
  induction L generalizing i with
  | nil => cases hi
  | cons a L ih =>
    rw [List.sorted_cons] at hs
    rw [List.countP_cons] at h
    by_cases ha : a < t
    · cases i with
      | zero => simpa using ha
      | succ j =>
        simp only [List.getElem_cons_succ]
        refine ih hs.2 (by simpa using hi) ?_
        simp [ha] at h
        omega
    · exfalso
      have hz : L.countP (fun v => decide (v < t)) = 0 := by
        rw [List.countP_eq_zero]
        intro x hx
        simp only [decide_eq_true_eq]
        intro hxt
        exact ha (lt_of_le_of_lt (hs.1 x hx) hxt)
      simp [ha, hz] at h


-- L2: positions at or above the count have value >= t
theorem sorted_le_getElem_of_countP_le {L : List ℤ} (hs : L.Sorted (· ≤ ·))
    {t : ℤ} {i : ℕ} (hi : i < L.length)
    (h : L.countP (fun v => decide (v < t)) ≤ i) : t ≤ L[i] := by
  induction L generalizing i with
  | nil => cases hi
  | cons a L ih =>
    rw [List.sorted_cons] at hs
    rw [List.countP_cons] at h
    by_cases ha : a < t
    · cases i with
      | zero => simp [ha] at h
      | succ j =>
        simp only [List.getElem_cons_succ]
        refine ih hs.2 (by simpa using hi) ?_
        simp [ha] at h
        omega
    · cases i with
      | zero => simpa using not_lt.1 ha
      | succ j =>
        simp only [List.getElem_cons_succ]
        exact le_trans (not_lt.1 ha) (hs.1 _ (List.getElem_mem _))


theorem chain_of_adjacent {R : ℕ → ℕ → Prop} :
    ∀ (l : List ℕ) (a : ℕ),
    (∀ j (hj : j + 1 < (a :: l).length), R ((a :: l)[j]) ((a :: l)[j + 1])) →
    List.Chain R a l := by
  intro l
  induction l with
  | nil => intro a _; exact List.Chain.nil
  | cons b t ih =>
    intro a h
    refine List.Chain.cons (h 0 (by simp)) (ih b ?_)
    intro j hj
    have := h (j + 1) (by simpa using hj)
    simpa using this

/-- Between two adjacent elements of a filtered range nothing satisfies
the predicate. -/
theorem filter_range_gap {p : ℕ → Bool} {M : ℕ} {j : ℕ}
    (hj : j + 1 < ((List.range M).filter p).length) {u : ℕ}
    (h1 : ((List.range M).filter p)[j] < u)
    (h2 : u < ((List.range M).filter p)[j + 1]) : p u = false := by
  by_contra hp
  rw [Bool.not_eq_false] at hp
  have hu : u ∈ (List.range M).filter p := by
    rw [List.mem_filter, List.mem_range]
    have hmem : ((List.range M).filter p)[j + 1] ∈ (List.range M).filter p :=
      List.getElem_mem _
    rw [List.mem_filter, List.mem_range] at hmem
    exact ⟨lt_trans h2 hmem.1, hp⟩
  obtain ⟨i, hi, hiu⟩ := List.mem_iff_getElem.1 hu
  have hpw : ((List.range M).filter p).Pairwise (· < ·) :=
    (List.pairwise_lt_range _).filter _
  rw [List.pairwise_iff_getElem] at hpw
  rcases lt_trichotomy i j with hij | rfl | hij
  · have := hpw i j hi (by omega) hij
    omega
  · omega
  · rcases lt_or_le i (j + 1) with hij2 | hij2
    · omega
    · rcases eq_or_lt_of_le hij2 with rfl | hij3
      · omega
      · have := hpw (j + 1) i hj hi hij3
        omega

theorem filter_range_gap' {p : ℕ → Bool} {M : ℕ} {K : List ℕ}
    (hK : K = (List.range M).filter p) {j : ℕ} (hj : j + 1 < K.length) {u : ℕ}
    (h1 : K[j] < u) (h2 : u < K[j + 1]) : p u = false := by
  subst hK
  exact filter_range_gap hj h1 h2

/-- The insertion position is constant strictly between two adjacent
kept positions. -/
theorem cnt_flat_between (dim : ℕ) (data : List (List ℚ)) (N : ℕ) {j : ℕ}
    (hj : j + 1 < (keptTs dim data N).length) :
    ∀ u : ℕ, (keptTs dim data N)[j] ≤ u →
      u < (keptTs dim data N)[j + 1] →
      cnt dim data N (u : ℤ) =
        cnt dim data N (((keptTs dim data N)[j] : ℕ) : ℤ) := by
  intro u hu
  induction u, hu using Nat.le_induction with
  | base => intro _; rfl
  | succ u hu ih =>
    intro hlt
    have hu1 : u < (keptTs dim data N)[j + 1] := by omega
    have hflat := ih hu1
    have hgap : (fun t : ℕ => decide (t = 0) ||
        decide (cnt dim data N (t : ℤ) ≠ cnt dim data N ((t : ℤ) - 1)))
        (u + 1) = false := by
      refine filter_range_gap' (K := keptTs dim data N) (M := N ^ dim) rfl hj ?_ hlt
      omega
    simp only [Bool.or_eq_false_iff, decide_eq_false_iff_not] at hgap
    have heq : cnt dim data N ((u + 1 : ℕ) : ℤ) = cnt dim data N (u : ℤ) := by
      have h2 := hgap.2
      rw [not_not] at h2
      have hcast : ((u + 1 : ℕ) : ℤ) - 1 = (u : ℤ) := by push_cast; ring
      rw [hcast] at h2
      exact h2
    rw [heq, hflat]

theorem cnt_eq_countP (dim : ℕ) (data : List (List ℚ)) (N : ℕ) (t : ℤ) :
    cnt dim data N t =
      ((sortedInd dim data N).map (fun i => linOf dim data N i)).countP
        (fun v => decide (v < t)) := rfl

theorem sortedInd_sorted (dim : ℕ) (data : List (List ℚ)) (N : ℕ) :
    ((sortedInd dim data N).map (fun i => linOf dim data N i)).Sorted
      (· ≤ ·) := by
  have hsort : (sortedInd dim data N).Sorted
      (fun a b => linOf dim data N a ≤ linOf dim data N b) := by
    unfold sortedInd
    haveI h1 : IsTotal ℕ (fun a b => linOf dim data N a ≤ linOf dim data N b) :=
      ⟨fun a b => le_total _ _⟩
    haveI h2 : IsTrans ℕ (fun a b => linOf dim data N a ≤ linOf dim data N b) :=
      ⟨fun a b c hab hbc => le_trans hab hbc⟩
    exact List.sorted_insertionSort _ _
  exact List.Pairwise.map _ (fun a b h => h) hsort

theorem Ls_length (dim : ℕ) (data : List (List ℚ)) (N : ℕ) :
    ((sortedInd dim data N).map (fun i => linOf dim data N i)).length =
      data.length := by
  rw [List.length_map, length_sortedInd]

theorem Ls_getElem (dim : ℕ) (data : List (List ℚ)) (N : ℕ) {idx : ℕ}
    (h1 : idx < ((sortedInd dim data N).map
      (fun i => linOf dim data N i)).length)
    (h2 : idx < (sortedInd dim data N).length) :
    ((sortedInd dim data N).map (fun i => linOf dim data N i))[idx] =
      linOf dim data N ((sortedInd dim data N)[idx]) := by
  rw [List.getElem_map]

theorem getD_eq_getElem_of_lt {l : List α} {i : ℕ} (h : i < l.length) (d : α) :
    l.getD i d = l[i] := by
  rw [List.getD_eq_getElem?_getD, List.getElem?_eq_getElem h, Option.getD_some]

/-- Between two adjacent kept positions t1 < t2 the sorted linear
indices are constantly t2 - 1 on the index segment
[cnt t1, cnt t2), and the segment is nonempty. -/
theorem segment_const (dim : ℕ) (data : List (List ℚ)) (N : ℕ)
    {j : ℕ} (hj : j + 1 < (keptTs dim data N).length) :
    cnt dim data N (((keptTs dim data N)[j] : ℕ) : ℤ) <
      cnt dim data N (((keptTs dim data N)[j + 1] : ℕ) : ℤ) ∧
    ∀ idx : ℕ,
      cnt dim data N (((keptTs dim data N)[j] : ℕ) : ℤ) ≤ idx →
      idx < cnt dim data N (((keptTs dim data N)[j + 1] : ℕ) : ℤ) →
      linOf dim data N ((sortedInd dim data N).getD idx 0) =
        (((keptTs dim data N)[j + 1] : ℕ) : ℤ) - 1 := by
  have hpw := keptTs_pairwise dim data N
  rw [List.pairwise_iff_getElem] at hpw
  have ht12 : (keptTs dim data N)[j] <
      (keptTs dim data N)[j + 1] := hpw j (j + 1) (by omega) hj (by omega)
  have hmem : (keptTs dim data N)[j + 1] ∈ keptTs dim data N :=
    List.getElem_mem _
  have hkept2 : cnt dim data N (((keptTs dim data N)[j + 1] : ℕ) : ℤ) ≠
      cnt dim data N ((((keptTs dim data N)[j + 1] : ℕ) : ℤ) - 1) := by
    have hmem2 : (keptTs dim data N)[j + 1] ∈
        (List.range (N ^ dim)).filter (fun t : ℕ => decide (t = 0) ||
          decide (cnt dim data N (t : ℤ) ≠ cnt dim data N ((t : ℤ) - 1))) :=
      hmem
    rw [List.mem_filter] at hmem2
    have h2 := hmem2.2
    simp only [Bool.or_eq_true, decide_eq_true_eq] at h2
    rcases h2 with h0 | hne
    · omega
    · exact hne
  have hflat := cnt_flat_between dim data N hj
    ((keptTs dim data N)[j + 1] - 1) (by omega) (by omega)
  have hcast : ((((keptTs dim data N)[j + 1] : ℕ) - 1 : ℕ) : ℤ) =
      (((keptTs dim data N)[j + 1] : ℕ) : ℤ) - 1 := by omega
  rw [hcast] at hflat
  have hmono := cnt_mono dim data N
    (t := (((keptTs dim data N)[j] : ℕ) : ℤ))
    (u := (((keptTs dim data N)[j + 1] : ℕ) : ℤ)) (by exact_mod_cast ht12.le)
  constructor
  · rcases eq_or_lt_of_le hmono with heq | hlt
    · exfalso
      exact hkept2 (by rw [hflat, ← heq])
    · exact hlt
  · intro idx h1 h2
    have hidxn : idx < data.length :=
      lt_of_lt_of_le h2 (cnt_le_length dim data N _)
    have hL1 := @sorted_getElem_lt_of_lt_countP
      ((sortedInd dim data N).map (fun i => linOf dim data N i))
      (sortedInd_sorted dim data N)
      (((keptTs dim data N)[j + 1] : ℕ) : ℤ) idx
      (by rw [Ls_length]; exact hidxn)
      (by rw [← cnt_eq_countP]; exact h2)
    have hL2 := @sorted_le_getElem_of_countP_le
      ((sortedInd dim data N).map (fun i => linOf dim data N i))
      (sortedInd_sorted dim data N)
      ((((keptTs dim data N)[j + 1] : ℕ) : ℤ) - 1) idx
      (by rw [Ls_length]; exact hidxn)
      (by rw [← cnt_eq_countP, hflat]; exact h1)
    rw [Ls_getElem dim data N (by rw [Ls_length]; exact hidxn)
      (by rw [length_sortedInd]; exact hidxn)] at hL1 hL2
    rw [getD_eq_getElem_of_lt (by rw [length_sortedInd]; exact hidxn)]
    omega

theorem getLastD_eq_getElem {l : List α} (h : 0 < l.length) (d : α) :
    l.getLastD d = l[l.length - 1] := by
  rw [List.getLastD_eq_getLast?, List.getLast?_eq_getElem?,
    List.getElem?_eq_getElem (by omega)]
  rfl

theorem linKey_inj {N : ℕ} (hN : 1 ≤ N) :
    ∀ {k1 k2 : List ℤ}, k1.length = k2.length →
      (∀ d ∈ k1, 0 ≤ d ∧ d < N) → (∀ d ∈ k2, 0 ≤ d ∧ d < N) →
      linKey N k1 = linKey N k2 → k1 = k2 := by
  intro k1
  induction k1 with
  | nil =>
    intro k2 hlen _ _ _
    cases k2 with
    | nil => rfl
    | cons d t => simp at hlen
  | cons d1 t1 ih =>
    intro k2 hlen hb1 hb2 heq
    cases k2 with
    | nil => simp at hlen
    | cons d2 t2 =>
      have hd1 := hb1 d1 (List.mem_cons_self _ _)
      have hd2 := hb2 d2 (List.mem_cons_self _ _)
      have hstep1 : linKey N (d1 :: t1) = d1 + N * linKey N t1 := rfl
      have hstep2 : linKey N (d2 :: t2) = d2 + N * linKey N t2 := rfl
      rw [hstep1, hstep2] at heq
      have hNz : (0 : ℤ) < (N : ℤ) := by exact_mod_cast hN
      have hreq : linKey N t1 = linKey N t2 := by
        rcases lt_trichotomy (linKey N t1) (linKey N t2) with h | h | h
        · exfalso
          have hm1 : (1 : ℤ) ≤ linKey N t2 - linKey N t1 := by omega
          have hm2 : (N : ℤ) * 1 ≤ (N : ℤ) * (linKey N t2 - linKey N t1) :=
            mul_le_mul_of_nonneg_left hm1 (le_of_lt hNz)
          nlinarith [hd1.1, hd1.2, hd2.1, hd2.2]
        · exact h
        · exfalso
          have hm1 : (1 : ℤ) ≤ linKey N t1 - linKey N t2 := by omega
          have hm2 : (N : ℤ) * 1 ≤ (N : ℤ) * (linKey N t1 - linKey N t2) :=
            mul_le_mul_of_nonneg_left hm1 (le_of_lt hNz)
          nlinarith [hd1.1, hd1.2, hd2.1, hd2.2]
      have hdeq : d1 = d2 := by
        rw [hreq] at heq
        linarith
      subst hdeq
      have hrec := ih (by simpa using hlen)
        (fun d hd => hb1 d (List.mem_cons_of_mem _ hd))
        (fun d hd => hb2 d (List.mem_cons_of_mem _ hd)) hreq
      rw [hrec]

theorem keyOf_bounds {dim : ℕ} {data : List (List ℚ)} {N : ℕ} (hN : 1 ≤ N)
    {i : ℕ} (hi : i < data.length) :
    ∀ d ∈ keyOf dim data N i, 0 ≤ d ∧ d < N := by
  intro d hd
  unfold keyOf cellKey at hd
  obtain ⟨k, hk, rfl⟩ := List.mem_map.1 hd
  refine digitAx_bounds hN ?_
  exact List.mem_map_of_mem _ (getD_mem_of_lt hi [])

theorem keyOf_eq_of_linOf_eq {dim : ℕ} {data : List (List ℚ)} {N : ℕ}
    (hN : 1 ≤ N) {i1 i2 : ℕ} (h1 : i1 < data.length) (h2 : i2 < data.length)
    (h : linOf dim data N i1 = linOf dim data N i2) :
    keyOf dim data N i1 = keyOf dim data N i2 := by
  refine linKey_inj hN ?_ (keyOf_bounds hN h1) (keyOf_bounds hN h2) h
  rw [keyOf_length, keyOf_length]

theorem splitIndRaw_length (dim : ℕ) (data : List (List ℚ)) (N : ℕ) :
    (splitIndRaw dim data N).length = (keptTs dim data N).length := by
  unfold splitIndRaw
  rw [List.length_map]

theorem splitIndRaw_getElem (dim : ℕ) (data : List (List ℚ)) (N : ℕ) {j : ℕ}
    (hj : j < (keptTs dim data N).length)
    (hj2 : j < (splitIndRaw dim data N).length) :
    (splitIndRaw dim data N)[j] =
      cnt dim data N (((keptTs dim data N)[j] : ℕ) : ℤ) := by
  simp only [splitIndRaw, List.getElem_map]

theorem splitInd_cases (dim : ℕ) (data : List (List ℚ)) (N : ℕ) :
    (splitInd dim data N = splitIndRaw dim data N ∧
      (splitIndRaw dim data N).getLastD 0 ≤ data.length - 1) ∨
    (splitInd dim data N = (splitIndRaw dim data N).dropLast ∧
      data.length - 1 < (splitIndRaw dim data N).getLastD 0) := by
  unfold splitInd
  split
  · rename_i h
    right
    exact ⟨rfl, h⟩
  · rename_i h
    left
    exact ⟨rfl, by omega⟩

theorem splitInd_length_le (dim : ℕ) (data : List (List ℚ)) (N : ℕ) :
    (splitInd dim data N).length ≤ (keptTs dim data N).length := by
  rcases splitInd_cases dim data N with ⟨h, _⟩ | ⟨h, _⟩
  · rw [h, splitIndRaw_length]
  · rw [h, List.length_dropLast, splitIndRaw_length]
    omega

theorem splitInd_getElem (dim : ℕ) (data : List (List ℚ)) (N : ℕ) {j : ℕ}
    (hj : j < (splitInd dim data N).length)
    (hjK : j < (keptTs dim data N).length) :
    (splitInd dim data N)[j] =
      cnt dim data N (((keptTs dim data N)[j] : ℕ) : ℤ) := by
  rcases splitInd_cases dim data N with ⟨h, _⟩ | ⟨h, _⟩
  · rw [List.getElem_of_eq h]
    exact splitIndRaw_getElem dim data N hjK
      (by rw [splitIndRaw_length]; exact hjK)
  · rw [List.getElem_of_eq h, List.getElem_dropLast]
    exact splitIndRaw_getElem dim data N hjK
      (by rw [splitIndRaw_length]; exact hjK)

theorem mem_le_getElem_last {l : List ℕ} (hpw : l.Pairwise (· < ·))
    (hl : 0 < l.length) {x : ℕ} (hx : x ∈ l) :
    x ≤ l[l.length - 1] := by
  obtain ⟨j, hjlt, rfl⟩ := List.mem_iff_getElem.1 hx
  rw [List.pairwise_iff_getElem] at hpw
  rcases Nat.lt_or_ge j (l.length - 1) with hj | hj
  · exact le_of_lt (hpw j (l.length - 1) hjlt (by omega) hj)
  · have hje : j = l.length - 1 := by omega
    subst hje
    exact le_refl _

theorem lin_getD (dim : ℕ) (data : List (List ℚ)) (N : ℕ) {x : ℕ}
    (hx : x < data.length)
    (hx2 : x < ((sortedInd dim data N).map
      (fun i => linOf dim data N i)).length) :
    linOf dim data N ((sortedInd dim data N).getD x 0) =
      ((sortedInd dim data N).map (fun i => linOf dim data N i))[x] := by
  rw [getD_eq_getElem_of_lt (show x < (sortedInd dim data N).length by
    rw [length_sortedInd]; exact hx)]
  exact (Ls_getElem dim data N hx2
    (by rw [length_sortedInd]; exact hx)).symm

theorem sortedInd_getD_mono (dim : ℕ) (data : List (List ℚ)) (N : ℕ) :
    ∀ i j : ℕ, i ≤ j → j < (sortedInd dim data N).length →
      linOf dim data N ((sortedInd dim data N).getD i 0) ≤
        linOf dim data N ((sortedInd dim data N).getD j 0) := by
  intro i j hij hj
  rcases eq_or_lt_of_le hij with rfl | hlt
  · exact le_refl _
  · rw [length_sortedInd] at hj
    rw [lin_getD dim data N (by omega) (by rw [Ls_length]; omega),
      lin_getD dim data N hj (by rw [Ls_length]; exact hj)]
    have hs : ((sortedInd dim data N).map
        (fun i => linOf dim data N i)).Pairwise (· ≤ ·) :=
      sortedInd_sorted dim data N
    rw [List.pairwise_iff_getElem] at hs
    exact hs i j (by rw [Ls_length]; omega) (by rw [Ls_length]; exact hj) hlt

theorem cnt_flat_above (dim : ℕ) (data : List (List ℚ)) (N : ℕ)
    (hmK : 0 < (keptTs dim data N).length) :
    ∀ u : ℕ,
      (keptTs dim data N)[(keptTs dim data N).length - 1] ≤ u →
      u < N ^ dim →
      cnt dim data N (u : ℤ) =
        cnt dim data N
          (((keptTs dim data N)[(keptTs dim data N).length - 1] :
            ℕ) : ℤ) := by
  intro u hu
  induction u, hu using Nat.le_induction with
  | base => intro _; rfl
  | succ u hu ih =>
    intro hlt
    have hflat := ih (by omega)
    have hnotmem : u + 1 ∉ keptTs dim data N := by
      intro hmem
      have hle := mem_le_getElem_last (keptTs_pairwise dim data N) hmK hmem
      omega
    have hpred : ¬((decide (u + 1 = 0) ||
        decide (cnt dim data N ((u + 1 : ℕ) : ℤ) ≠
          cnt dim data N (((u + 1 : ℕ) : ℤ) - 1))) = true) := by
      intro hp
      exact hnotmem (List.mem_filter.2 ⟨List.mem_range.2 hlt, hp⟩)
    simp only [Bool.or_eq_true, decide_eq_true_eq, not_or, not_not] at hpred
    have heq : cnt dim data N ((u + 1 : ℕ) : ℤ) = cnt dim data N (u : ℤ) := by
      have h2 := hpred.2
      have hcast : ((u + 1 : ℕ) : ℤ) - 1 = (u : ℤ) := by push_cast; ring
      rw [hcast] at h2
      exact h2
    rw [heq, hflat]

theorem last_segment_const (dim : ℕ) (data : List (List ℚ)) (N : ℕ)
    (hN : 1 ≤ N) (hmK : 0 < (keptTs dim data N).length) :
    ∀ idx : ℕ,
      cnt dim data N
        (((keptTs dim data N)[(keptTs dim data N).length - 1] :
          ℕ) : ℤ) ≤ idx →
      idx < data.length →
      linOf dim data N ((sortedInd dim data N).getD idx 0) =
        (N : ℤ) ^ dim - 1 := by
  intro idx h1 h2
  have hMpos : 1 ≤ N ^ dim := Nat.one_le_pow _ _ (by omega)
  have hKlt : (keptTs dim data N)[(keptTs dim data N).length - 1] <
      N ^ dim := by
    have hmem := List.getElem_mem
      (l := keptTs dim data N) (n := (keptTs dim data N).length - 1)
      (h := by omega)
    have hmem2 : (keptTs dim data N)[(keptTs dim data N).length - 1] ∈ List.range (N ^ dim) := List.mem_of_mem_filter hmem
    exact List.mem_range.1 hmem2
  have hcast : ((N ^ dim - 1 : ℕ) : ℤ) = (N : ℤ) ^ dim - 1 := by
    rw [Nat.cast_sub hMpos]
    push_cast
    ring
  have hflat := cnt_flat_above dim data N hmK (N ^ dim - 1) (by omega)
    (by omega)
  have hcnt_le : cnt dim data N ((N : ℤ) ^ dim - 1) ≤ idx := by
    rw [← hcast, hflat]
    exact h1
  have hlow := @sorted_le_getElem_of_countP_le
    ((sortedInd dim data N).map (fun i => linOf dim data N i))
    (sortedInd_sorted dim data N) ((N : ℤ) ^ dim - 1) idx
    (by rw [Ls_length]; exact h2)
    (by rw [← cnt_eq_countP]; exact hcnt_le)
  rw [← lin_getD dim data N h2 (by rw [Ls_length]; exact h2)] at hlow
  have hmemS : (sortedInd dim data N).getD idx 0 < data.length :=
    mem_sortedInd.1 (getD_mem_of_lt (by rw [length_sortedInd]; exact h2) 0)
  have hup := (@linOf_bounds dim data N hN _ hmemS).2
  omega

theorem gridGet_gridInsert (g : Grid) (k1 k2 : List ℤ) (i : ℕ) :
    gridGet (gridInsert g k1 i) k2 =
      gridGet g k2 ++ if k2 = k1 then [i] else [] := by
  induction g with
  | nil =>
    simp only [gridInsert, gridGet]
    by_cases h : k1 = k2
    · subst h
      simp
    · rw [if_neg h, if_neg (fun hh => h hh.symm)]
      rfl
  | cons e rest ih =>
    obtain ⟨k, l⟩ := e
    unfold gridInsert
    by_cases h : k = k1
    · rw [if_pos h]
      simp only [gridGet]
      by_cases h2 : k = k2
      · rw [if_pos h2, if_pos h2, if_pos (h2.symm.trans h)]
      · rw [if_neg h2, if_neg h2]
        have h3 : k2 ≠ k1 := fun hh => h2 (h.trans hh.symm)
        rw [if_neg h3, List.append_nil]
    · rw [if_neg h]
      simp only [gridGet]
      by_cases h2 : k = k2
      · rw [if_pos h2, if_pos h2]
        have h3 : k2 ≠ k1 := fun hh => h (h2.trans hh)
        rw [if_neg h3, List.append_nil]
      · rw [if_neg h2, if_neg h2, ih]

theorem gridGet_foldl (kf : ℕ → List ℤ) (L : List ℕ) (g : Grid)
    (key : List ℤ) :
    gridGet (L.foldl (fun g i => gridInsert g (kf i) i) g) key =
      gridGet g key ++ L.filter (fun i => decide (kf i = key)) := by
  induction L generalizing g with
  | nil => simp
  | cons a L ih =>
    rw [List.foldl_cons, ih, gridGet_gridInsert, List.filter_cons]
    by_cases h : kf a = key
    · rw [if_pos (decide_eq_true h), if_pos h.symm, List.append_assoc]
      rfl
    · rw [if_neg (fun hh => h (of_decide_eq_true hh)),
        if_neg (fun hh => h hh.symm), List.append_nil]

theorem sparseGrid_get (dim : ℕ) (data : List (List ℚ)) (N : ℕ)
    (key : List ℤ) :
    gridGet (sparseGrid dim data N) key =
      (List.range data.length).filter
        (fun i => decide (keyOf dim data N i = key)) := by
  unfold sparseGrid
  rw [gridGet_foldl]
  rfl

theorem gridGet_zip_split (S : List ℕ) (ky : ℕ → List ℤ) (f : ℕ → ℤ)
    (hcong : ∀ a b : ℕ, ky a = ky b → f a = f b)
    (hmono : ∀ i j : ℕ, i ≤ j → j < S.length →
      f (S.getD i 0) ≤ f (S.getD j 0))
    (key : List ℤ) :
    ∀ (bs : List ℕ) (b : ℕ), b < S.length → (∀ c ∈ bs, c < S.length) →
      List.Chain (fun x y => f (S.getD x 0) < f (S.getD y 0)) b bs →
      List.Chain (fun x y => ∀ idx : ℕ, x ≤ idx → idx < y →
        ky (S.getD idx 0) = ky (S.getD x 0)) b (bs ++ [S.length]) →
      gridGet (((b :: bs).map (fun c => ky (S.getD c 0))).zip
          (npSplitFrom S b bs)) key =
        (S.drop b).filter (fun a => decide (ky a = key)) := by
  intro bs
  induction bs with
  | nil =>
    intro b hb _ _ hKC
    rw [List.nil_append, List.chain_cons] at hKC
    have hKb := hKC.1
    simp only [List.map_cons, List.map_nil, npSplitFrom, List.zip_cons_cons,
      List.zip_nil_right]
    simp only [gridGet]
    by_cases hkb : ky (S.getD b 0) = key
    · rw [if_pos hkb]
      symm
      rw [List.filter_eq_self]
      intro a ha
      rw [List.mem_iff_getElem] at ha
      obtain ⟨i0, hi0, rfl⟩ := ha
      have hi0' : b + i0 < S.length := by
        rw [List.length_drop] at hi0
        omega
      have hval : (S.drop b)[i0] = S.getD (b + i0) 0 := by
        rw [List.getElem_drop, getD_eq_getElem_of_lt hi0']
      rw [hval, hKb (b + i0) (by omega) hi0', hkb]
      exact decide_eq_true rfl
    · rw [if_neg hkb]
      symm
      rw [List.filter_eq_nil_iff]
      intro a ha
      rw [List.mem_iff_getElem] at ha
      obtain ⟨i0, hi0, rfl⟩ := ha
      have hi0' : b + i0 < S.length := by
        rw [List.length_drop] at hi0
        omega
      have hval : (S.drop b)[i0] = S.getD (b + i0) 0 := by
        rw [List.getElem_drop, getD_eq_getElem_of_lt hi0']
      rw [hval]
      simp only [decide_eq_true_eq]
      intro hkey
      exact hkb (((hKb (b + i0) (by omega) hi0').symm).trans hkey)
  | cons b' rest ih =>
    intro b hb hbs hlt hKC
    rw [List.cons_append, List.chain_cons] at hKC
    rw [List.chain_cons] at hlt
    have hb' : b' < S.length := hbs b' (List.mem_cons_self _ _)
    have hbb' : b ≤ b' := by
      by_contra hc
      push_neg at hc
      exact absurd hlt.1 (not_lt.2 (hmono b' b hc.le hb))
    simp only [List.map_cons, npSplitFrom, List.zip_cons_cons]
    simp only [gridGet]
    have hdecomp : S.drop b = (S.drop b).take (b' - b) ++ S.drop b' := by
      conv_lhs => rw [← List.take_append_drop (b' - b) (S.drop b)]
      congr 1
      rw [List.drop_drop]
      congr 1
      omega
    have hchunk : ∀ a ∈ (S.drop b).take (b' - b),
        ky a = ky (S.getD b 0) := by
      intro a ha
      rw [List.mem_iff_getElem] at ha
      obtain ⟨i0, hi0, rfl⟩ := ha
      have hlen : i0 < b' - b := by
        have := List.length_take_le (b' - b) (S.drop b)
        omega
      have hlt2 : b + i0 < S.length := by omega
      have hval : ((S.drop b).take (b' - b))[i0] = S.getD (b + i0) 0 := by
        rw [List.getElem_take, List.getElem_drop, getD_eq_getElem_of_lt hlt2]
      rw [hval]
      exact hKC.1 (b + i0) (by omega) (by omega)
    by_cases hkb : ky (S.getD b 0) = key
    · rw [if_pos hkb]
      conv_rhs => rw [hdecomp]
      rw [List.filter_append]
      have h1 : ((S.drop b).take (b' - b)).filter
          (fun a => decide (ky a = key)) = (S.drop b).take (b' - b) := by
        rw [List.filter_eq_self]
        intro a ha
        rw [hchunk a ha, hkb]
        exact decide_eq_true rfl
      have h2 : (S.drop b').filter (fun a => decide (ky a = key)) = [] := by
        rw [List.filter_eq_nil_iff]
        intro a ha
        rw [List.mem_iff_getElem] at ha
        obtain ⟨i0, hi0, rfl⟩ := ha
        have hlen2 : b' + i0 < S.length := by
          rw [List.length_drop] at hi0
          omega
        have hval : (S.drop b')[i0] = S.getD (b' + i0) 0 := by
          rw [List.getElem_drop, getD_eq_getElem_of_lt hlen2]
        rw [hval]
        simp only [decide_eq_true_eq]
        intro hkey
        have h3 : f (S.getD (b' + i0) 0) = f (S.getD b 0) :=
          hcong _ _ (hkey.trans hkb.symm)
        have h4 := hmono b' (b' + i0) (by omega) hlen2
        have h5 := hlt.1
        linarith
      rw [h1, h2, List.append_nil]
    · rw [if_neg hkb]
      have ih2 := ih b' hb' (fun c hc => hbs c (List.mem_cons_of_mem _ hc))
        hlt.2 hKC.2
      rw [List.map_cons] at ih2
      rw [ih2, hdecomp, List.filter_append]
      have h1 : ((S.drop b).take (b' - b)).filter
          (fun a => decide (ky a = key)) = [] := by
        rw [List.filter_eq_nil_iff]
        intro a ha
        rw [hchunk a ha]
        simp only [decide_eq_true_eq]
        exact hkb
      rw [h1, List.nil_append]

theorem getLastD_eq_getD {l : List α} (h : 0 < l.length) (d : α) :
    l.getLastD d = l.getD (l.length - 1) d := by
  rw [getLastD_eq_getElem h, getD_eq_getElem_of_lt (by omega)]

theorem splitIndRaw_getD (dim : ℕ) (data : List (List ℚ)) (N : ℕ) {j : ℕ}
    (hj : j < (keptTs dim data N).length) :
    (splitIndRaw dim data N).getD j 0 =
      cnt dim data N (((keptTs dim data N).getD j 0 : ℕ) : ℤ) := by
  rw [getD_eq_getElem_of_lt (show j < (splitIndRaw dim data N).length by
      rw [splitIndRaw_length]; exact hj),
    splitIndRaw_getElem dim data N hj
      (by rw [splitIndRaw_length]; exact hj),
    getD_eq_getElem_of_lt hj]

theorem splitInd_getD (dim : ℕ) (data : List (List ℚ)) (N : ℕ) {j : ℕ}
    (hj : j < (splitInd dim data N).length) :
    (splitInd dim data N).getD j 0 =
      cnt dim data N (((keptTs dim data N).getD j 0 : ℕ) : ℤ) := by
  rw [getD_eq_getElem_of_lt hj,
    splitInd_getElem dim data N hj
      (lt_of_lt_of_le hj (splitInd_length_le dim data N)),
    getD_eq_getElem_of_lt (lt_of_lt_of_le hj (splitInd_length_le dim data N))]

theorem segment_const_getD (dim : ℕ) (data : List (List ℚ)) (N : ℕ) {j : ℕ}
    (hj : j + 1 < (keptTs dim data N).length) :
    cnt dim data N (((keptTs dim data N).getD j 0 : ℕ) : ℤ) <
      cnt dim data N (((keptTs dim data N).getD (j + 1) 0 : ℕ) : ℤ) ∧
    ∀ idx : ℕ,
      cnt dim data N (((keptTs dim data N).getD j 0 : ℕ) : ℤ) ≤ idx →
      idx < cnt dim data N (((keptTs dim data N).getD (j + 1) 0 : ℕ) : ℤ) →
      linOf dim data N ((sortedInd dim data N).getD idx 0) =
        (((keptTs dim data N).getD (j + 1) 0 : ℕ) : ℤ) - 1 := by
  have h := segment_const dim data N hj
  rw [getD_eq_getElem_of_lt (show j < (keptTs dim data N).length by omega),
    getD_eq_getElem_of_lt hj]
  exact h

theorem last_segment_const_getD (dim : ℕ) (data : List (List ℚ)) (N : ℕ)
    (hN : 1 ≤ N) (hmK : 0 < (keptTs dim data N).length) :
    ∀ idx : ℕ,
      cnt dim data N
        (((keptTs dim data N).getD ((keptTs dim data N).length - 1) 0 :
          ℕ) : ℤ) ≤ idx →
      idx < data.length →
      linOf dim data N ((sortedInd dim data N).getD idx 0) =
        (N : ℤ) ^ dim - 1 := by
  intro idx h1 h2
  refine last_segment_const dim data N hN hmK idx ?_ h2
  rwa [getD_eq_getElem_of_lt (by omega) 0] at h1

theorem splitInd_last_lt (dim : ℕ) (data : List (List ℚ)) (N : ℕ)
    (hdata : data ≠ []) (hN : 1 ≤ N) :
    (splitInd dim data N).getD ((splitInd dim data N).length - 1) 0 <
      data.length := by
  have hn : 0 < data.length := List.length_pos.2 hdata
  obtain ⟨tl, hsplit⟩ := splitInd_head dim data N hdata hN
  have hm : 0 < (splitInd dim data N).length := by rw [hsplit]; simp
  have hmK : 0 < (keptTs dim data N).length :=
    lt_of_lt_of_le hm (splitInd_length_le dim data N)
  rcases splitInd_cases dim data N with ⟨h, hle⟩ | ⟨h, hgt⟩
  · rw [h, ← getLastD_eq_getD (by rw [splitIndRaw_length]; exact hmK) 0]
    omega
  · have hlenB : (splitInd dim data N).length =
        (keptTs dim data N).length - 1 := by
      rw [h, List.length_dropLast, splitIndRaw_length]
    have hmK2 : 2 ≤ (keptTs dim data N).length := by omega
    rw [splitInd_getD dim data N (by omega), hlenB]
    have hidx : (keptTs dim data N).length - 1 - 1 =
        (keptTs dim data N).length - 2 := by omega
    rw [hidx]
    have hseg := (@segment_const_getD dim data N
      ((keptTs dim data N).length - 2) (by omega)).1
    have hix2 : (keptTs dim data N).length - 2 + 1 =
        (keptTs dim data N).length - 1 := by omega
    rw [hix2] at hseg
    exact lt_of_lt_of_le hseg (cnt_le_length dim data N _)

theorem splitInd_mem_lt (dim : ℕ) (data : List (List ℚ)) (N : ℕ)
    (hdata : data ≠ []) (hN : 1 ≤ N) :
    ∀ c ∈ splitInd dim data N, c < data.length := by
  intro c hc
  obtain ⟨j, hj, rfl⟩ := List.mem_iff_getElem.1 hc
  have hlast := splitInd_last_lt dim data N hdata hN
  rw [getD_eq_getElem_of_lt (show (splitInd dim data N).length - 1 <
    (splitInd dim data N).length by omega) 0] at hlast
  have hpw := splitInd_pairwise dim data N
  rw [List.pairwise_iff_getElem] at hpw
  rcases Nat.lt_or_ge j ((splitInd dim data N).length - 1) with hjlt | hjge
  · exact lt_of_le_of_lt
      (hpw j ((splitInd dim data N).length - 1) hj (by omega) hjlt) hlast
  · have hje : j = (splitInd dim data N).length - 1 := by omega
    subst hje
    exact hlast

theorem splitInd_adj_lt (dim : ℕ) (data : List (List ℚ)) (N : ℕ)
    (hdata : data ≠ []) (hN : 1 ≤ N) :
    ∀ j (hj : j + 1 < (splitInd dim data N).length),
      linOf dim data N ((sortedInd dim data N).getD
        ((splitInd dim data N)[j]) 0) <
      linOf dim data N ((sortedInd dim data N).getD
        ((splitInd dim data N)[j + 1]) 0) := by
  intro j hj
  rw [← getD_eq_getElem_of_lt
        (show j < (splitInd dim data N).length by omega) 0,
      ← getD_eq_getElem_of_lt hj 0]
  rw [splitInd_getD dim data N (show j < (splitInd dim data N).length by omega),
      splitInd_getD dim data N hj]
  have hjK : j + 1 < (keptTs dim data N).length :=
    lt_of_lt_of_le hj (splitInd_length_le dim data N)
  have hseg := (@segment_const_getD dim data N j hjK).1
  have hb1 : cnt dim data N (((keptTs dim data N).getD j 0 : ℕ) : ℤ) <
      data.length := by
    have hmem : (splitInd dim data N).getD j 0 ∈ splitInd dim data N :=
      getD_mem_of_lt (by omega) 0
    have hc := splitInd_mem_lt dim data N hdata hN _ hmem
    rwa [splitInd_getD dim data N (by omega)] at hc
  have hb2 : cnt dim data N (((keptTs dim data N).getD (j + 1) 0 : ℕ) : ℤ) <
      data.length := by
    have hmem : (splitInd dim data N).getD (j + 1) 0 ∈ splitInd dim data N :=
      getD_mem_of_lt hj 0
    have hc := splitInd_mem_lt dim data N hdata hN _ hmem
    rwa [splitInd_getD dim data N hj] at hc
  rw [lin_getD dim data N hb1 (by rw [Ls_length]; exact hb1),
    lin_getD dim data N hb2 (by rw [Ls_length]; exact hb2)]
  have hL1 := @sorted_getElem_lt_of_lt_countP
    ((sortedInd dim data N).map (fun i => linOf dim data N i))
    (sortedInd_sorted dim data N)
    (((keptTs dim data N).getD (j + 1) 0 : ℕ) : ℤ)
    (cnt dim data N (((keptTs dim data N).getD j 0 : ℕ) : ℤ))
    (by rw [Ls_length]; exact hb1)
    (by rw [← cnt_eq_countP]; exact hseg)
  have hL2 := @sorted_le_getElem_of_countP_le
    ((sortedInd dim data N).map (fun i => linOf dim data N i))
    (sortedInd_sorted dim data N)
    (((keptTs dim data N).getD (j + 1) 0 : ℕ) : ℤ)
    (cnt dim data N (((keptTs dim data N).getD (j + 1) 0 : ℕ) : ℤ))
    (by rw [Ls_length]; exact hb2)
    (by rw [← cnt_eq_countP])
  exact lt_of_lt_of_le hL1 hL2

theorem splitInd_adj_KC (dim : ℕ) (data : List (List ℚ)) (N : ℕ)
    (hdata : data ≠ []) (hN : 1 ≤ N) :
    ∀ j (hj : j + 1 < (splitInd dim data N ++ [data.length]).length),
      ∀ idx : ℕ,
        (splitInd dim data N ++ [data.length])[j] ≤ idx →
        idx < (splitInd dim data N ++ [data.length])[j + 1] →
        keyOf dim data N ((sortedInd dim data N).getD idx 0) =
          keyOf dim data N ((sortedInd dim data N).getD
            ((splitInd dim data N ++ [data.length])[j]) 0) := by
  intro j hj idx h1 h2
  have hmlen : (splitInd dim data N ++ [data.length]).length =
      (splitInd dim data N).length + 1 := by
    rw [List.length_append, List.length_cons, List.length_nil]
  have hjm : j < (splitInd dim data N).length := by omega
  have hvj : (splitInd dim data N ++ [data.length])[j] =
      (splitInd dim data N).getD j 0 := by
    rw [List.getElem_append_left hjm, getD_eq_getElem_of_lt hjm]
  rw [hvj] at h1 ⊢
  have hvalid : ∀ x : ℕ, x < data.length →
      (sortedInd dim data N).getD x 0 < data.length := fun x hx =>
    mem_sortedInd.1 (getD_mem_of_lt (by rw [length_sortedInd]; exact hx) 0)
  rcases Nat.lt_or_ge (j + 1) (splitInd dim data N).length with hlt2 | hge2
  · have hvj1 : (splitInd dim data N ++ [data.length])[j + 1] =
        (splitInd dim data N).getD (j + 1) 0 := by
      rw [List.getElem_append_left hlt2, getD_eq_getElem_of_lt hlt2]
    rw [hvj1] at h2
    rw [splitInd_getD dim data N hjm] at h1 ⊢
    rw [splitInd_getD dim data N hlt2] at h2
    have hjK : j + 1 < (keptTs dim data N).length :=
      lt_of_lt_of_le hlt2 (splitInd_length_le dim data N)
    have hseg := @segment_const_getD dim data N j hjK
    have hidxn : idx < data.length :=
      lt_of_lt_of_le h2 (cnt_le_length dim data N _)
    have hbjn : cnt dim data N (((keptTs dim data N).getD j 0 : ℕ) : ℤ) <
        data.length := lt_of_lt_of_le hseg.1 (cnt_le_length dim data N _)
    have hl1 := hseg.2 idx h1 h2
    have hl2 := hseg.2 _ (le_refl _) hseg.1
    exact keyOf_eq_of_linOf_eq hN (hvalid idx hidxn) (hvalid _ hbjn)
      (hl1.trans hl2.symm)
  · have hvj1 : (splitInd dim data N ++ [data.length])[j + 1] =
        data.length := by
      rw [List.getElem_append_right hge2]
      exact List.getElem_singleton data.length
        (by rw [List.length_append, List.length_cons, List.length_nil] at hj
            omega)
    rw [hvj1] at h2
    have hjlast : j = (splitInd dim data N).length - 1 := by omega
    rw [splitInd_getD dim data N hjm] at h1 ⊢
    have hmK : 0 < (keptTs dim data N).length := by
      have hle := splitInd_length_le dim data N
      omega
    have hbn : cnt dim data N (((keptTs dim data N).getD j 0 : ℕ) : ℤ) <
        data.length := by
      have hlast := splitInd_last_lt dim data N hdata hN
      rw [splitInd_getD dim data N (by omega)] at hlast
      rw [← hjlast] at hlast
      exact hlast
    rcases splitInd_cases dim data N with ⟨hA, hle⟩ | ⟨hB, hgt⟩
    · have hlenA : (splitInd dim data N).length =
          (keptTs dim data N).length := by
        rw [hA, splitIndRaw_length]
      have hjK : j = (keptTs dim data N).length - 1 := by omega
      rw [hjK] at h1 hbn ⊢
      have hl1 := last_segment_const_getD dim data N hN hmK idx h1 h2
      have hl2 := last_segment_const_getD dim data N hN hmK _ (le_refl _) hbn
      exact keyOf_eq_of_linOf_eq hN (hvalid idx h2) (hvalid _ hbn)
        (hl1.trans hl2.symm)
    · have hlenB : (splitInd dim data N).length =
          (keptTs dim data N).length - 1 := by
        rw [hB, List.length_dropLast, splitIndRaw_length]
      have hmK2 : 2 ≤ (keptTs dim data N).length := by omega
      have hjK : j = (keptTs dim data N).length - 2 := by omega
      have hneq : cnt dim data N
          (((keptTs dim data N).getD
            ((keptTs dim data N).length - 1) 0 : ℕ) : ℤ) = data.length := by
        have hlast := getLastD_eq_getD
          (l := splitIndRaw dim data N)
          (by rw [splitIndRaw_length]; omega) 0
        rw [hlast, splitIndRaw_length,
          splitIndRaw_getD dim data N (by omega)] at hgt
        have hcle := cnt_le_length dim data N
          (((keptTs dim data N).getD
            ((keptTs dim data N).length - 1) 0 : ℕ) : ℤ)
        have hn : 0 < data.length := List.length_pos.2 hdata
        omega
      have hjK1 : ((keptTs dim data N).length - 2) + 1 <
          (keptTs dim data N).length := by omega
      have hseg := @segment_const_getD dim data N
        ((keptTs dim data N).length - 2) hjK1
      have hix : (keptTs dim data N).length - 2 + 1 =
          (keptTs dim data N).length - 1 := by omega
      rw [hix] at hseg
      rw [hjK] at h1 hbn ⊢
      have h2' : idx < cnt dim data N
          (((keptTs dim data N).getD
            ((keptTs dim data N).length - 1) 0 : ℕ) : ℤ) := by
        rw [hneq]
        exact h2
      have hl1 := hseg.2 idx h1 h2'
      have hl2 := hseg.2 _ (le_refl _) hseg.1
      exact keyOf_eq_of_linOf_eq hN (hvalid idx h2) (hvalid _ hbn)
        (hl1.trans hl2.symm)

/-- C7: the dense construction strategy (linearize, sort, binary-search
split) and the sparse strategy (direct per-point insertion) produce the
same mapping from cell key to the set of contained point indices: for
every cell key the two index lists are permutations of each other
(within-cell order may differ). -/
theorem c7_dense_sparse_agree (dim : ℕ) (data : List (List ℚ)) (N : ℕ)
    (hdata : data ≠ []) (hN : 1 ≤ N) (key : List ℤ) :
    gridGet (denseGrid dim data N) key ~
      gridGet (sparseGrid dim data N) key := by
  have hn : 0 < data.length := List.length_pos.2 hdata
  obtain ⟨tl, hsplit⟩ := splitInd_head dim data N hdata hN
  have hadjlt := splitInd_adj_lt dim data N hdata hN
  have hadjKC := splitInd_adj_KC dim data N hdata hN
  rw [hsplit] at hadjlt hadjKC
  have hchainlt : List.Chain (fun x y =>
      linOf dim data N ((sortedInd dim data N).getD x 0) <
        linOf dim data N ((sortedInd dim data N).getD y 0)) 0 tl :=
    chain_of_adjacent tl 0 hadjlt
  have hchainKC : List.Chain (fun x y => ∀ idx : ℕ, x ≤ idx → idx < y →
      keyOf dim data N ((sortedInd dim data N).getD idx 0) =
        keyOf dim data N ((sortedInd dim data N).getD x 0)) 0
      (tl ++ [data.length]) :=
    chain_of_adjacent (tl ++ [data.length]) 0 hadjKC
  have hmono := sortedInd_getD_mono dim data N
  have hcong : ∀ a b : ℕ, keyOf dim data N a = keyOf dim data N b →
      linOf dim data N a = linOf dim data N b := by
    intro a b h
    unfold linOf
    rw [h]
  have hbs : ∀ c ∈ tl, c < (sortedInd dim data N).length := by
    intro c hc
    rw [length_sortedInd]
    exact splitInd_mem_lt dim data N hdata hN c
      (by rw [hsplit]; exact List.mem_cons_of_mem _ hc)
  have h0 : 0 < (sortedInd dim data N).length := by
    rw [length_sortedInd]
    exact hn
  have hdense := gridGet_zip_split (sortedInd dim data N)
    (keyOf dim data N) (linOf dim data N) hcong hmono key tl 0 h0 hbs
    hchainlt (by rw [length_sortedInd]; exact hchainKC)
  rw [List.drop_zero] at hdense
  have hd2 : gridGet (denseGrid dim data N) key =
      (sortedInd dim data N).filter
        (fun a => decide (keyOf dim data N a = key)) := by
    unfold denseGrid npSplit
    rw [hsplit]
    simp only [List.tail_cons]
    exact hdense
  rw [hd2, sparseGrid_get dim data N key]
  have hperm : sortedInd dim data N ~ List.range data.length :=
    List.perm_insertionSort _ _
  exact hperm.filter _

/-- Witness for c7_dense_sparse_agree: three one-dimensional points,
one cell, queried at the key of that cell. -/
theorem c7_witness :
    gridGet (denseGrid 1 [[0], [1], [2]] 1) [0] ~
      gridGet (sparseGrid 1 [[0], [1], [2]] 1) [0] :=
  c7_dense_sparse_agree 1 [[0], [1], [2]] 1 (by decide) (by decide) [0]

end GriSPy
